import Mathlib

/-!
# Verification of the unified-husky-config hook system

A shallow embedding, in Lean 4, of the JavaScript sources of the
`unified-husky-config` repository:

* `hooks/pre-commit.js` and `hooks/pre-push.js` — the hook runners and their
  process entry points (`runPreCommitChecks`, `runPrePushChecks`,
  `runWithTimeout`);
* `configs/common.config.js` and `configs/hooks-config.js` — the layered
  configuration object, `deepMerge`, `mergeArrays`, `getConfig`,
  `shouldSkipForBranch`;
* `scripts/utils/config-loader.js` — `detectProjectType`;
* `commit-msg.js` — `parsePattern`, `parseCommitMessage`.

JavaScript values that flow through the configuration machinery are modelled
by the inductive type `Husky.Value`; JS exceptions are modelled by `Except`,
and the asynchronous race inside `runWithTimeout` by an explicit
`RaceOutcome` describing which side settled first.
-/

namespace Husky

/-! ## Check descriptors and the hook-runner loop

`hooks/pre-commit.js` (lines 35–80) and `hooks/pre-push.js` (lines 27–73 of
the same shape) contain the *same* check loop, duplicated verbatim up to log
strings.  We model the check descriptor by the three fields the loop reads
(`name`, `enabled`, `critical`; the check descriptors shipped in the repo all
carry genuine booleans there, so JS truthiness collapses to `Bool`), and an
external check by a function from its name to `Except` — invoking
`require("./scripts/checks/NAME.js")` and awaiting the module can either
resolve (`.ok`) or throw/reject (`.error msg`), both of which the loop's
single `try`/`catch` observes. -/

structure Check where
  name : String
  enabled : Bool
  critical : Bool
  deriving Repr, DecidableEq

/-- One element of the `results` array pushed by the loop.  A passing check
pushes `{ name, passed: true }` (no `critical` property, i.e. `undefined`,
modelled `none`); a failing check pushes
`{ name, passed: false, error, critical: check.critical }`. -/
structure CheckResult where
  name : String
  passed : Bool
  critical : Option Bool
  deriving Repr, DecidableEq

/-- The `for (const check of checks) { try { ... } catch { ...; if
(check.critical) return false } }` loop shared by `runPreCommitChecks` and
`runPrePushChecks`, over the already-`enabled`-filtered list.  Returns the
`results` array accumulated so far together with `true` when the loop
executed `return false` early (critical failure). -/
def runChecksLoop (rc : String → Except String Unit) :
    List Check → List CheckResult × Bool
  | [] => ([], false)
  | c :: cs =>
    match rc c.name with
    | .ok _ =>
      let r := runChecksLoop rc cs
      (⟨c.name, true, none⟩ :: r.1, r.2)
    | .error _ =>
      if c.critical then ([⟨c.name, false, some c.critical⟩], true)
      else
        let r := runChecksLoop rc cs
        (⟨c.name, false, some c.critical⟩ :: r.1, r.2)

/-- `results.filter((r) => r.critical).every((r) => r.passed)` — JS truthiness
of the `critical` property (`undefined` is falsy). -/
def allCriticalPassed (rs : List CheckResult) : Bool :=
  (rs.filter fun r => r.critical.getD false).all (·.passed)

/-- The tail of `runPreCommitChecks` / `runPrePushChecks` after the
enabled-disabled and skip short-circuits: filter the configured checks by
`check.enabled`, run the loop, and aggregate.  Returns the results trace
(which records exactly the checks that were invoked, in order) and the
function's boolean return value. -/
def runHookChecks (rc : String → Except String Unit) (checks : List Check) :
    List CheckResult × Bool :=
  let r := runChecksLoop rc (checks.filter (·.enabled))
  if r.2 then (r.1, false)
  else if !allCriticalPassed r.1 then (r.1, false)
  else (r.1, true)

/-- Result entry produced for a check the loop invoked. -/
def resultOf (rc : String → Except String Unit) (c : Check) : CheckResult :=
  match rc c.name with
  | .ok _ => ⟨c.name, true, none⟩
  | .error _ => ⟨c.name, false, some c.critical⟩

/-! ### Lemmas about the loop -/

theorem runChecksLoop_nil (rc : String → Except String Unit) :
    runChecksLoop rc [] = ([], false) := rfl

theorem runChecksLoop_cons_ok (rc : String → Except String Unit)
    (c : Check) (cs : List Check) (u : Unit) (h : rc c.name = .ok u) :
    runChecksLoop rc (c :: cs) =
      (⟨c.name, true, none⟩ :: (runChecksLoop rc cs).1,
        (runChecksLoop rc cs).2) := by
  simp [runChecksLoop, h]

theorem runChecksLoop_cons_fail_noncrit (rc : String → Except String Unit)
    (c : Check) (cs : List Check) (e : String) (he : rc c.name = .error e)
    (hc : c.critical = false) :
    runChecksLoop rc (c :: cs) =
      (⟨c.name, false, some c.critical⟩ :: (runChecksLoop rc cs).1,
        (runChecksLoop rc cs).2) := by
  simp [runChecksLoop, he, hc]

theorem runChecksLoop_cons_fail_crit (rc : String → Except String Unit)
    (c : Check) (cs : List Check) (e : String) (he : rc c.name = .error e)
    (hc : c.critical = true) :
    runChecksLoop rc (c :: cs) = ([⟨c.name, false, some c.critical⟩], true) := by
  simp [runChecksLoop, he, hc]

/-- A check either passes under `rc` or is non-critical. -/
def NoCritFail (rc : String → Except String Unit) (c : Check) : Prop :=
  (∃ u, rc c.name = .ok u) ∨ c.critical = false

/-- If no check of the list critically fails, the loop never aborts and its
trace is the pointwise `resultOf` trace. -/
theorem runChecksLoop_no_abort (rc : String → Except String Unit)
    (cs : List Check) (h : ∀ c ∈ cs, NoCritFail rc c) :
    runChecksLoop rc cs = (cs.map (resultOf rc), false) := by
  induction cs with
  | nil => rfl
  | cons c cs ih =>
    have hc := h c (List.mem_cons_self c cs)
    have hrest : ∀ c' ∈ cs, NoCritFail rc c' := fun c' hc' =>
      h c' (List.mem_cons_of_mem c hc')
    rcases hc with ⟨u, hu⟩ | hcrit
    · simp [runChecksLoop, hu, ih hrest, resultOf]
    · cases hrc : rc c.name with
      | ok u => simp [runChecksLoop, hrc, ih hrest, resultOf]
      | error e => simp [runChecksLoop, hrc, hcrit, ih hrest, resultOf]

/-- Splitting the loop at the first critically-failing check: everything
before it runs, it runs and fails, nothing after it is invoked (the result
does not mention `post` at all). -/
theorem runChecksLoop_abort_at (rc : String → Except String Unit)
    (pre : List Check) (a : Check) (post : List Check)
    (hpre : ∀ c ∈ pre, NoCritFail rc c)
    (ha : ∃ e, rc a.name = .error e) (hcrit : a.critical = true) :
    runChecksLoop rc (pre ++ a :: post) =
      (pre.map (resultOf rc) ++ [⟨a.name, false, some a.critical⟩], true) := by
  induction pre with
  | nil =>
    obtain ⟨e, he⟩ := ha
    simp [runChecksLoop, he, hcrit]
  | cons c cs ih =>
    have hc := hpre c (List.mem_cons_self c cs)
    have hrest : ∀ c' ∈ cs, NoCritFail rc c' := fun c' hc' =>
      hpre c' (List.mem_cons_of_mem c hc')
    rcases hc with ⟨u, hu⟩ | hcritc
    · simp [runChecksLoop, hu, ih hrest, resultOf]
    · cases hrc : rc c.name with
      | ok u => simp [runChecksLoop, hrc, ih hrest, resultOf]
      | error e => simp [runChecksLoop, hrc, hcritc, ih hrest, resultOf]

/-- The loop aborts early iff some check in the list is critical and fails. -/
theorem runChecksLoop_aborts_iff (rc : String → Except String Unit)
    (cs : List Check) :
    (runChecksLoop rc cs).2 = true ↔
      ∃ c ∈ cs, c.critical = true ∧ ∃ e, rc c.name = .error e := by
  induction cs with
  | nil => simp [runChecksLoop]
  | cons c cs ih =>
    cases hrc : rc c.name with
    | ok u =>
      simp only [runChecksLoop, hrc]
      rw [show (⟨c.name, true, none⟩ :: (runChecksLoop rc cs).1,
            (runChecksLoop rc cs).2).2 = (runChecksLoop rc cs).2 from rfl]
      rw [ih]
      constructor
      · rintro ⟨c', hmem, hcrit, he⟩
        exact ⟨c', List.mem_cons_of_mem c hmem, hcrit, he⟩
      · rintro ⟨c', hmem, hcrit, e, he⟩
        rcases List.mem_cons.1 hmem with rfl | hmem
        · rw [hrc] at he; cases he
        · exact ⟨c', hmem, hcrit, e, he⟩
    | error e =>
      by_cases hcrit : c.critical = true
      · simp [runChecksLoop, hrc, hcrit]
      · simp only [runChecksLoop, hrc, Bool.not_eq_true] at hcrit ⊢
        rw [if_neg (by simp [hcrit])]
        simp only [hcrit]
        rw [show ((⟨c.name, false, some false⟩ : CheckResult) ::
              (runChecksLoop rc cs).1, (runChecksLoop rc cs).2).2 =
              (runChecksLoop rc cs).2 from rfl]
        rw [ih]
        constructor
        · rintro ⟨c', hmem, h1, h2⟩
          exact ⟨c', List.mem_cons_of_mem c hmem, h1, h2⟩
        · rintro ⟨c', hmem, h1, h2⟩
          rcases List.mem_cons.1 hmem with rfl | hmem
          · rw [hcrit] at h1; cases h1
          · exact ⟨c', hmem, h1, h2⟩

/-- After a completed (non-aborted) loop, every recorded `critical` field is
`some false` or `none`, so `allCriticalPassed` holds. -/
theorem allCriticalPassed_of_no_abort (rc : String → Except String Unit)
    (cs : List Check) (h : (runChecksLoop rc cs).2 = false) :
    allCriticalPassed (runChecksLoop rc cs).1 = true := by
  induction cs with
  | nil => rfl
  | cons c cs ih =>
    cases hrc : rc c.name with
    | ok u =>
      simp only [runChecksLoop, hrc] at h ⊢
      simpa [allCriticalPassed] using ih h
    | error e =>
      by_cases hcrit : c.critical = true
      · simp [runChecksLoop, hrc, hcrit] at h
      · simp only [Bool.not_eq_true] at hcrit
        simp only [runChecksLoop, hrc, hcrit] at h ⊢
        simp only [Bool.false_eq_true, if_false] at h ⊢
        simpa [allCriticalPassed] using ih h

/-- The overall boolean equals "no enabled critical check failed". -/
theorem runHookChecks_true_iff (rc : String → Except String Unit)
    (cs : List Check) :
    (runHookChecks rc cs).2 = true ↔
      ∀ c ∈ cs, c.enabled = true → c.critical = true →
        ∃ u, rc c.name = .ok u := by
  unfold runHookChecks
  by_cases hab : (runChecksLoop rc (cs.filter (·.enabled))).2 = true
  · simp only [hab, if_true]
    rw [runChecksLoop_aborts_iff] at hab
    obtain ⟨c, hmem, hcrit, e, he⟩ := hab
    have hen : c.enabled = true := (List.mem_filter.1 hmem).2
    have hcs : c ∈ cs := (List.mem_filter.1 hmem).1
    simp only [Bool.false_eq_true, false_iff, not_forall]
    exact ⟨c, hcs, hen, hcrit, by simp [he]⟩
  · have hab' : (runChecksLoop rc (cs.filter (·.enabled))).2 = false := by
      simpa using hab
    have hAll := allCriticalPassed_of_no_abort rc (cs.filter (·.enabled)) hab'
    simp only [hab', Bool.false_eq_true, if_false, hAll, Bool.not_true, if_false]
    rw [runChecksLoop_aborts_iff] at hab
    constructor
    · intro _ c hcs hen hcrit
      cases hrc : rc c.name with
      | ok u => exact ⟨u, rfl⟩
      | error e =>
        exact absurd ⟨c, List.mem_filter.2 ⟨hcs, hen⟩, hcrit, e, hrc⟩ hab
    · intro _; trivial

/-- The hook-runner entry points.  `hooks/pre-commit.js` top level:

    runWithTimeout().then((success) => { process.exit(success ? 0 : 1); });

and inside `runWithTimeout` the race result is awaited but *discarded*:

    try { await Promise.race([runPreCommitChecks(), timeoutPromise]); }
    catch (error) { logger.error(...); process.exit(1); }

so when the try-block completes, the `async` function resolves with
`undefined` (it has no `return` statement).  `hooks/pre-push.js` ends with
the identical pattern.  `RaceOutcome` records which side of the race settled
first and how. -/
inductive RaceOutcome where
  /-- `runPreCommitChecks()` / `runPrePushChecks()` settled first, resolving
  with the boolean `r` (`.ok r`) or rejecting with a thrown error
  (`.error msg`). -/
  | completed (r : Except String Bool)
  /-- the `setTimeout` rejection fired first. -/
  | timedOut
  deriving Repr

/-- What `runWithTimeout()` does: either the process already exited inside
the `catch` (`earlyExit`), or the promise resolved with the function's return
value — `none` standing for JavaScript `undefined`. -/
inductive RunEnd where
  | earlyExit (code : Nat)
  | finished (success : Option Bool)
  deriving Repr, DecidableEq

/-- `runWithTimeout` from `hooks/pre-commit.js` lines 84–101 (and the
verbatim copy in `hooks/pre-push.js`): a rejection of the race (check run
threw, or the timeout fired) is caught and the process exits 1; otherwise the
race's value is discarded and the function resolves `undefined`. -/
def runWithTimeout : RaceOutcome → RunEnd
  | .timedOut => .earlyExit 1
  | .completed (.error _) => .earlyExit 1
  | .completed (.ok _) => .finished none

/-- JS truthiness of the `success` argument reaching
`process.exit(success ? 0 : 1)` — `undefined` (`none`) is falsy. -/
def truthySuccess : Option Bool → Bool
  | none => false
  | some b => b

/-- Exit status of the pre-commit / pre-push process for a given race
outcome (the top-level `.then` of both hook files). -/
def hookExitCode (o : RaceOutcome) : Nat :=
  match runWithTimeout o with
  | .earlyExit code => code
  | .finished s => if truthySuccess s then 0 else 1

/-! ## Pre-commit / pre-push runner front ends

`runPreCommitChecks` first short-circuits on `!config.preCommit?.enabled`,
then on `config.preCommit.skipPattern && skipPattern.test(commitMsg)`;
`runPrePushChecks` short-circuits on `!config.prePush?.enabled`, then on
`config.prePush.skipBranches?.includes(currentBranch)` (plain `===`
membership via `Array.prototype.includes`).  The git subprocess results
(current branch, last commit message) are parameters. -/

structure PreCommitCfg where
  enabled : Bool
  /-- `skipPattern` may be absent (`none` = `undefined`, falsy). Whether the
  configured regex matches the last commit message is supplied by the
  regex-test oracle below. -/
  skipPatternMatches : Option Bool
  checks : List Check
  deriving Repr, DecidableEq

def runPreCommitChecks (rc : String → Except String Unit)
    (cfg : PreCommitCfg) : List CheckResult × Bool :=
  if !cfg.enabled then ([], true)
  else if cfg.skipPatternMatches.getD false then ([], true)
  else runHookChecks rc cfg.checks

structure PrePushCfg where
  enabled : Bool
  /-- `skipBranches` may be absent (`none` = `undefined`; the optional chain
  `skipBranches?.includes(...)` then yields `undefined`, falsy). -/
  skipBranches : Option (List String)
  checks : List Check
  deriving Repr, DecidableEq

def runPrePushChecks (rc : String → Except String Unit)
    (cfg : PrePushCfg) (currentBranch : String) : List CheckResult × Bool :=
  if !cfg.enabled then ([], true)
  else if (cfg.skipBranches.getD []).contains currentBranch then ([], true)
  else runHookChecks rc cfg.checks

/-! ## `shouldSkipForBranch` (`configs/common.config.js`, exported `utils`)

    return skipBranches.some((pattern) => {
      if (pattern.includes("*")) {
        const regex = new RegExp("^" + pattern.replace(/\*/g, ".*") + "$");
        return regex.test(currentBranch);
      }
      return currentBranch === pattern;
    });

The regex built from a pattern containing `*` consists of the pattern's
literal characters with every `*` replaced by `.*`.  We interpret that regex
directly: `*` becomes `anySeq` (`.*`), a literal `.` of the pattern becomes
the regex wildcard `anyChar`, every other character matches itself.  (Other
regex metacharacters are not modelled; none of the branch patterns used by
this repository — `"main"`, `"master"`, `"develop"`, `"release/*"` — contain
any.  Branch names contain no line terminators, so `.`'s newline exclusion
is immaterial.) -/

inductive GTok where
  | lit (c : Char)
  | anyChar
  | anySeq
  deriving Repr, DecidableEq

/-- `"^" + pattern.replace(/\*/g, ".*") + "$"`, tokenised. -/
def globToks (pattern : String) : List GTok :=
  pattern.data.map fun c =>
    if c = '*' then .anySeq else if c = '.' then .anyChar else .lit c

/-- All suffixes of a character list, longest first (the candidate
continuations after `.*` consumes a prefix). -/
def suffixes : List Char → List (List Char)
  | [] => [[]]
  | d :: ds => (d :: ds) :: suffixes ds

/-- Anchored regex matching for the token list (the built regex is anchored
on both sides by `^`/`$`); `.*` may consume any prefix, so the rest of the
regex is tried against every suffix. -/
def gMatch : List GTok → List Char → Bool
  | [], s => s.isEmpty
  | .lit _ :: _, [] => false
  | .anyChar :: _, [] => false
  | .lit c :: ts, d :: ds => c = d && gMatch ts ds
  | .anyChar :: ts, _ :: ds => gMatch ts ds
  | .anySeq :: ts, s => (suffixes s).any fun s' => gMatch ts s'

/-- One `skipBranches.some` candidate: wildcard patterns go through the
constructed regex, plain patterns through `===`. -/
def branchPatternMatches (pattern currentBranch : String) : Bool :=
  if pattern.data.contains '*' then gMatch (globToks pattern) currentBranch.data
  else currentBranch = pattern

/-- `shouldSkipForBranch` with the `git branch --show-current` subprocess
result supplied as `currentBranch` (the surrounding `try`/`catch` returns
`false` when git fails; that path is outside the model). -/
def shouldSkipForBranch (currentBranch : String) (skipBranches : List String) :
    Bool :=
  if currentBranch = "" || skipBranches.isEmpty then false
  else skipBranches.any (branchPatternMatches · currentBranch)

/-! ## JavaScript values

The configuration machinery of `configs/common.config.js` /
`configs/hooks-config.js` operates on untyped JavaScript data: strings,
numbers, booleans, `null`/`undefined`, `RegExp` literals, plain objects (with
insertion-ordered string keys) and arrays.  `Value` is the tree of such data.
The numbers occurring in the configuration are integers, modelled `Int`.
Sharing/aliasing is not representable in a tree; the companion heap model
further below handles the mutation-freedom claim. -/

inductive Value where
  | str (s : String)
  | num (n : Int)
  | bool (b : Bool)
  | null
  | undef
  | regexp (src flags : String)
  | obj (fields : List (String × Value))
  | arr (elems : List Value)
  deriving Repr, Inhabited

/-- JS truthiness. (`NaN` does not occur in the modelled data.) -/
def truthy : Value → Bool
  | .bool b => b
  | .num n => n != 0
  | .str s => !s.data.isEmpty
  | .null => false
  | .undef => false
  | .regexp _ _ => true
  | .obj _ => true
  | .arr _ => true

/-- JS strict equality `===` restricted to the tree model: primitives compare
by value; objects, arrays and regexps compare by reference, and two separate
occurrences in a tree are separate heap objects, hence `false`.  (Aliasing —
the same object reached twice — is not representable in a tree, so this is
exact for the tree-shaped data the configuration machinery builds.)  This is
also `SameValueZero`, the `Map` key equality, for the values at hand. -/
def sameValue : Value → Value → Bool
  | .str a, .str b => a == b
  | .num a, .num b => a == b
  | .bool a, .bool b => a == b
  | .null, .null => true
  | .undef, .undef => true
  | _, _ => false

/-- Own-property lookup in an insertion-ordered field list. -/
def getOwn (fs : List (String × Value)) (k : String) : Option Value :=
  (fs.find? (·.1 == k)).map (·.2)

/-- JS property assignment `o[k] = v` on a plain object: an existing key
keeps its position, a new key is appended. -/
def setOwn : List (String × Value) → String → Value → List (String × Value)
  | [], k, v => [(k, v)]
  | (k', v') :: fs, k, v =>
    if k' == k then (k', v) :: fs else (k', v') :: setOwn fs k v

/-- `delete o[k]`. -/
def deleteOwn (v : Value) (k : String) : Value :=
  match v with
  | .obj fs => .obj (fs.filter (·.1 != k))
  | v => v

/-- `isObject` from `configs/hooks-config.js`:
`item && typeof item === "object" && !Array.isArray(item)`.  `null` is falsy,
arrays are excluded, and a `RegExp` instance *is* an object. -/
def isObject : Value → Bool
  | .obj _ => true
  | .regexp _ _ => true
  | _ => false

def isArray : Value → Bool
  | .arr _ => true
  | _ => false

/-- The own enumerable properties contributed by an object spread `{ ...v }`:
an object contributes its fields, an array its indexed elements, a string its
indexed characters, and every other value (including `RegExp`, which has no
own enumerable properties) contributes nothing. -/
def spreadFields : Value → List (String × Value)
  | .obj fs => fs
  | .arr es => es.enum.map fun p => (toString p.1, p.2)
  | .str s => s.data.enum.map fun p => (toString p.1, .str (String.singleton p.2))
  | _ => []

/-- Property read `v[k]` in the total positions of the merge engine (where
`v` is never `null`/`undefined`, or the access is optional-chained so those
yield `undefined`): an own property of a plain object, else `undefined`.
The built-in prototype properties of primitives/arrays/regexps are not
consulted by the modelled code paths (the keys read are configuration keys
such as `"checks"`, `"name"`, `"enabled"`, which none of those prototypes
define). -/
def getPropD (v : Value) (k : String) : Value :=
  match v with
  | .obj fs => (getOwn fs k).getD .undef
  | _ => (.undef)

/-- `key in target` inside `deepMerge` (`target` satisfies `isObject` there).
Own keys of a plain object; a `RegExp` target has no own enumerable keys.
(`in` would also consult the prototype chain; configuration keys never
collide with prototype member names, so own keys are exact here.) -/
def keyIn (t : Value) (k : String) : Bool :=
  match t with
  | .obj fs => fs.any (·.1 == k)
  | _ => false

def arrElems : Value → List Value
  | .arr es => es
  | _ => []

/-! ## `JSON.stringify` (used by `mergeArrays` for dedup keys)

`none` is JavaScript's *undefined result* (`JSON.stringify(undefined)`).
The `Nat` argument is a recursion bound — a Lean artifact making the
definition structurally recursive and hence kernel-computable; JS recursion
on the acyclic trees modelled here always terminates, and every theorem
below either quantifies over the bound or instantiates it generously. -/

def jsonEscape (s : String) : String :=
  s.data.foldl (fun acc c =>
    if c = '"' then acc ++ "\\\""
    else if c = '\\' then acc ++ "\\\\"
    else if c = '\n' then acc ++ "\\n"
    else if c = '\r' then acc ++ "\\r"
    else if c = '\t' then acc ++ "\\t"
    else acc ++ String.singleton c) ""

def jsonStringifyF : Nat → Value → Option String
  | 0, _ => none
  | fuel + 1, v =>
    match v with
    | .str s => some ("\"" ++ jsonEscape s ++ "\"")
    | .num n => some (toString n)
    | .bool b => some (cond b "true" "false")
    | .null => some "null"
    | .undef => none
    | .regexp _ _ => some "{}"
    | .obj fs =>
      some ("\x7b" ++ String.intercalate ","
        (fs.filterMap fun p =>
          (jsonStringifyF fuel p.2).map
            fun sv => "\"" ++ jsonEscape p.1 ++ "\":" ++ sv) ++ "\x7d")
    | .arr es =>
      some ("[" ++ String.intercalate ","
        (es.map fun e => (jsonStringifyF fuel e).getD "null") ++ "]")

/-! ## `mergeArrays` (`configs/hooks-config.js` lines 309–323)

    const combined = [...arr1, ...arr2];
    const unique = new Map();
    combined.forEach((item) => {
      if (item && typeof item === "object" && item.name) {
        unique.set(item.name, item);
      } else {
        unique.set(JSON.stringify(item), item);
      }
    });
    return Array.from(unique.values());

`Map.set` on an existing key replaces the value but keeps the key's original
insertion position; `Map.values()` returns values in that order.  The map
key is either the `name` property's value or the `JSON.stringify` string
(`undefined` when stringify yields no string), compared with
`SameValueZero`. -/

/-- The dedup key `mergeArrays` files an item under.  `typeof item ===
"object"` is true for objects, arrays and regexps; `item &&` excludes
`null`. -/
def mergeKey (fuel : Nat) (item : Value) : Value :=
  if (isObject item || isArray item) && truthy (getPropD item "name") then
    getPropD item "name"
  else
    match jsonStringifyF fuel item with
    | some s => .str s
    | none => (.undef)

/-- `Map.prototype.set`: replace in place or append. -/
def mapSet : List (Value × Value) → Value → Value → List (Value × Value)
  | [], k, v => [(k, v)]
  | (k', v') :: m, k, v =>
    if sameValue k' k then (k', v) :: m else (k', v') :: mapSet m k v

def mergeArraysF (fuel : Nat) (arr1 arr2 : List Value) : List Value :=
  ((arr1 ++ arr2).foldl
    (fun m item => mapSet m (mergeKey fuel item) item) []).map (·.2)

/-! ## `deepMerge` (`configs/hooks-config.js` lines 280–301)

    function deepMerge(target, source) {
      const output = { ...target };
      if (isObject(target) && isObject(source)) {
        Object.keys(source).forEach((key) => {
          if (isObject(source[key])) {
            if (!(key in target)) { output[key] = source[key]; }
            else { output[key] = deepMerge(target[key], source[key]); }
          } else if (Array.isArray(source[key]) && Array.isArray(target[key])) {
            output[key] = mergeArrays(target[key], source[key]);
          } else {
            output[key] = source[key];
          }
        });
      }
      return output;
    }

A plain object's own keys are unique, so iterating `Object.keys(source)` and
looking each key up is the same as iterating `source`'s field list.  As with
`jsonStringifyF`, the `Nat` argument is a recursion bound (a Lean artifact;
the JS recursion terminates on the acyclic trees modelled here). -/

/-- One step of the `Object.keys(source).forEach` loop, parameterized by the
recursive merge (`dm` is `deepMergeF` at the decremented recursion bound). -/
def dmStep (dm : Value → Value → Value) (t : Value)
    (mergeArr : List Value → List Value → List Value)
    (out : List (String × Value)) (p : String × Value) :
    List (String × Value) :=
  let k := p.1
  let sv := p.2
  if isObject sv then
    if !keyIn t k then setOwn out k sv
    else setOwn out k (dm (getPropD t k) sv)
  else if isArray sv && isArray (getPropD t k) then
    setOwn out k (.arr (mergeArr (arrElems (getPropD t k)) (arrElems sv)))
  else setOwn out k sv

def deepMergeF : Nat → Value → Value → Value
  | 0, t, _ => .obj (spreadFields t)
  | fuel + 1, t, s =>
    if isObject t && isObject s then
      .obj ((spreadFields s).foldl
        (dmStep (deepMergeF fuel) t (mergeArraysF fuel)) (spreadFields t))
    else .obj (spreadFields t)

/-! ## The common configuration object (`configs/common.config.js`)

The process environment it reads is a parameter. -/

structure EnvVars where
  ci : Option String
  githubActions : Option String
  nodeEnv : Option String
  huskyVerbose : Option String
  huskyAutoFix : Option String
  huskyParallel : Option String
  huskyCache : Option String
  deriving Repr, DecidableEq

/-- `process.env.X === "v"` (an absent variable is `undefined`, never equal
to a string). -/
def envEq (o : Option String) (v : String) : Bool :=
  match o with
  | some s => s == v
  | none => false

/-- The exported `config` object, translated literally.  The module also
attaches `default` (a self-reference, not representable in a tree) and
`utils` (functions); neither key is consulted by `getConfig`'s merge nor
survives into its final structure, so they are omitted here. -/
def commonConfigVal (e : EnvVars) : Value :=
  .obj [
    ("general", .obj [
      ("skipCI", .bool (envEq e.ci "true")),
      ("verbose", .bool (envEq e.huskyVerbose "true")),
      ("autoFix", .bool (!envEq e.huskyAutoFix "false")),
      ("parallelChecks", .bool (!envEq e.huskyParallel "false")),
      ("cacheEnabled", .bool (!envEq e.huskyCache "false"))]),
    ("preCommitDefaults", .obj [
      ("enabled", .bool true),
      ("checks", .arr [
        .obj [("name", .str "lint-staged"), ("enabled", .bool true),
          ("critical", .bool true),
          ("options", .obj [("stagedOnly", .bool true),
            ("allowEmpty", .bool false), ("autoFix", .bool true)])],
        .obj [("name", .str "typescript"), ("enabled", .bool true),
          ("critical", .bool true),
          ("options", .obj [("noEmit", .bool true),
            ("skipLibCheck", .bool true), ("changedOnly", .bool true)])]]),
      ("timeout", .num 10000),
      ("skipPattern", .regexp "^wip:|^fixup!|^squash!|^draft:" "i"),
      ("runInCI", .bool true),
      ("parallel", .bool false),
      ("failFast", .bool true)]),
    ("prePushDefaults", .obj [
      ("enabled", .bool true),
      ("checks", .arr [
        .obj [("name", .str "build"), ("enabled", .bool true),
          ("critical", .bool true),
          ("options", .obj [("production", .bool false),
            ("sourceMap", .bool true)])],
        .obj [("name", .str "test"), ("enabled", .bool false),
          ("critical", .bool false),
          ("options", .obj [("watch", .bool false),
            ("coverage", .bool false)])]]),
      ("timeout", .num 120000),
      ("skipBranches", .arr [.str "main", .str "master", .str "develop",
        .str "release/*"])]),
    ("commitMsgDefaults", .obj [
      ("enabled", .bool true),
      ("pattern", .regexp
        "^(feat|fix|docs|style|refactor|test|chore|perf|build|ci|revert)(\\(.+\\))?: .+" ""),
      ("minLength", .num 10),
      ("maxLength", .num 100),
      ("allowMerge", .bool true),
      ("allowRevert", .bool true),
      ("allowSquash", .bool false)]),
    ("preCommit", .obj []),
    ("prePush", .obj []),
    ("commitMsg", .obj []),
    ("environments", .obj [
      ("development", .obj [
        ("general", .obj [("verbose", .bool true), ("autoFix", .bool true)]),
        ("preCommit", .obj [("timeout", .num 15000),
          ("failFast", .bool false)]),
        ("prePush", .obj [("enabled", .bool false)])]),
      ("production", .obj [
        ("general", .obj [("skipCI", .bool false), ("verbose", .bool false)]),
        ("preCommit", .obj [
          ("checks", .arr [
            .obj [("name", .str "lint-staged"), ("enabled", .bool true),
              ("critical", .bool true)],
            .obj [("name", .str "typescript"), ("enabled", .bool true),
              ("critical", .bool true)]])]),
        ("prePush", .obj [
          ("enabled", .bool true),
          ("checks", .arr [
            .obj [("name", .str "build"), ("enabled", .bool true),
              ("critical", .bool true)],
            .obj [("name", .str "test"), ("enabled", .bool true),
              ("critical", .bool false)]])])]),
      ("ci", .obj [
        ("general", .obj [("skipCI", .bool false), ("verbose", .bool true),
          ("parallelChecks", .bool true)]),
        ("preCommit", .obj [("runInCI", .bool true),
          ("parallel", .bool true), ("timeout", .num 30000)]),
        ("prePush", .obj [("enabled", .bool true),
          ("timeout", .num 180000)])])])]

/-- `getEnvironment` from `configs/hooks-config.js` lines 371–382. -/
def getEnvironment (e : EnvVars) : String :=
  if envEq e.ci "true" || envEq e.githubActions "true" then "ci"
  else if envEq e.nodeEnv "production" then "production"
  else if envEq e.nodeEnv "test" then "test"
  else "development"

/-! ## `getConfig` (`configs/hooks-config.js` lines 384–480) -/

/-- Non-optional property read `x[k]` at a position where `x` may be
anything: `null`/`undefined` raise a `TypeError`; a plain object yields its
own property or `undefined`; other values yield `undefined` (their
prototypes do not define the configuration keys read here). -/
def jsGetPropE (v : Value) (k : String) : Except String Value :=
  match v with
  | .null => .error ("TypeError: cannot read " ++ k ++ " of null")
  | .undef => .error ("TypeError: cannot read " ++ k ++ " of undefined")
  | .obj fs => .ok ((getOwn fs k).getD .undef)
  | _ => .ok (.undef)

/-- `self.findIndex((c) => c.name === check.name)` — `-1` when absent; a
`TypeError` raised by either property read propagates. -/
def findIndexName (target : Value) : Int → List Value → Except String Int
  | _, [] => .ok (-1)
  | i, c :: cs =>
    match jsGetPropE c "name" with
    | .error e => .error e
    | .ok nc =>
      match jsGetPropE target "name" with
      | .error e => .error e
      | .ok nt =>
        if sameValue nc nt then .ok i else findIndexName target (i + 1) cs

/-- `.filter((check, index, self) => index === self.findIndex((c) => c.name
=== check.name))` — keep each element iff it is the first with its name. -/
def dedupGo (self : List Value) : Int → List Value → Except String (List Value)
  | _, [] => .ok []
  | i, c :: cs =>
    match findIndexName c 0 self with
    | .error e => .error e
    | .ok j =>
      match dedupGo self (i + 1) cs with
      | .error e => .error e
      | .ok rest => .ok (if j == i then c :: rest else rest)

def dedupByName (self : List Value) : Except String (List Value) :=
  dedupGo self 0 self

/-- `[...(v || [])]` — array-literal spread of a possibly-absent checks list.
A falsy value is replaced by `[]`; arrays spread to their elements, strings
to their characters; spreading any other value throws (`not iterable`). -/
def checksSpread (v : Value) : Except String (List Value) :=
  let w := if truthy v then v else .arr []
  match w with
  | .arr es => .ok es
  | .str s => .ok (s.data.map fun c => .str (String.singleton c))
  | _ => .error "TypeError: value is not iterable"

/-- One resolved hook section:

    { ...mergedConfig.XDefaults, ...mergedConfig.X,
      checks: [ ...(mergedConfig.XDefaults?.checks || []),
                ...(mergedConfig.X?.checks || []) ].filter(dedup) }
-/
def resolveHookSection (merged : Value) (defKey ovKey : String) :
    Except String Value :=
  let base := (spreadFields (getPropD merged ovKey)).foldl
    (fun o p => setOwn o p.1 p.2) (spreadFields (getPropD merged defKey))
  match checksSpread (getPropD (getPropD merged defKey) "checks") with
  | .error e => .error e
  | .ok dsChecks =>
    match checksSpread (getPropD (getPropD merged ovKey) "checks") with
    | .error e => .error e
    | .ok ovChecks =>
      match dedupByName (dsChecks ++ ovChecks) with
      | .error e => .error e
      | .ok deduped => .ok (.obj (setOwn base "checks" (.arr deduped)))

/-- The `commitMsg` section: `{ ...mergedConfig.commitMsgDefaults,
...mergedConfig.commitMsg }`. -/
def resolveCommitMsgSection (merged : Value) : Value :=
  .obj ((spreadFields (getPropD merged "commitMsg")).foldl
    (fun o p => setOwn o p.1 p.2)
    (spreadFields (getPropD merged "commitMsgDefaults")))

/-- `loadProjectConfig(projectType)`: `"common"` short-circuits to `{}`; for
any other type the module loaded from disk (or `{}` when missing/failed) is
the `projectConfig` parameter. -/
def projectCfgOf (projectType : String) (projectConfig : Value) : Value :=
  if projectType == "common" then .obj [] else projectConfig

/-- `commonConfig.environments?.[environment] || {}`. -/
def envConfigOf (e : EnvVars) : Value :=
  let envRaw := getPropD (getPropD (commonConfigVal e) "environments")
    (getEnvironment e)
  if truthy envRaw then envRaw else .obj []

def mergedConfigOf (fuel : Nat) (e : EnvVars) (projectType : String)
    (projectConfig userConfig : Value) : Value :=
  let merged1 := deleteOwn
    (deepMergeF fuel (commonConfigVal e) (envConfigOf e)) "environments"
  let merged2 := deepMergeF fuel merged1 (projectCfgOf projectType projectConfig)
  deepMergeF fuel merged2 userConfig

/-- `module.exports = function getConfig(projectType = "common", userConfig
= {})`.  Parameters beyond the JS ones: the recursion bound `fuel` (see
`deepMergeF`), the process environment `e`, the value `projectConfig`
produced by `loadProjectConfig` for a non-`"common"` project type (that
function reads the filesystem; `"common"` short-circuits to `{}` inside it),
the timestamp `now` (`new Date().toISOString()`) and `cwd`
(`process.cwd()`; `path.join(cwd, ".husky-cache")` is modelled by string
concatenation). -/
def getConfig (fuel : Nat) (e : EnvVars) (projectType : String)
    (projectConfig userConfig : Value) (now cwd : String) :
    Except String Value :=
  let environment := getEnvironment e
  let projectCfg := projectCfgOf projectType projectConfig
  let merged := mergedConfigOf fuel e projectType projectConfig userConfig
  match resolveHookSection merged "preCommitDefaults" "preCommit" with
  | .error er => .error er
  | .ok pre =>
  match resolveHookSection merged "prePushDefaults" "prePush" with
  | .error er => .error er
  | .ok push =>
  .ok (.obj [
    ("meta", .obj [
      ("projectType", .str projectType),
      ("environment", .str environment),
      ("configVersion", .str "1.0.0"),
      ("generatedAt", .str now)]),
    ("general", .obj (setOwn (setOwn (setOwn
      (spreadFields (getPropD merged "general"))
      "projectRoot" (.str cwd))
      "projectType" (.str projectType))
      "environment" (.str environment))),
    ("preCommit", pre),
    ("prePush", push),
    ("commitMsg", resolveCommitMsgSection merged),
    ("advanced", .obj [
      ("project", projectCfg),
      ("env", .obj [
        ("nodeEnv", match e.nodeEnv with | some s => .str s | none => .undef),
        ("isCI", .bool (envEq e.ci "true")),
        ("isVerbose", .bool (envEq e.huskyVerbose "true"))]),
      ("cache", .obj [
        ("enabled", .bool
          (!sameValue (getPropD (getPropD merged "general") "cacheEnabled")
            (.bool false))),
        ("directory", .str (cwd ++ "/.husky-cache")),
        ("ttl", .num 3600000)])])])

/-! ## `detectProjectType` (`scripts/utils/config-loader.js` lines 54–103)

The method first lists the project root — `fs.readdirSync(this.projectRoot)`
is *outside* any `try`, so a failure there propagates — then tests the file
names against anchored, fully-escaped filename regexes, and finally inspects
`package.json` dependencies inside a `try`/`catch` that swallows read and
parse failures.  The filesystem is a parameter. -/

structure FsState where
  /-- outcome of `fs.readdirSync(this.projectRoot)`. -/
  rootFiles : Except String (List String)
  /-- `fs.existsSync(path.join(projectRoot, "package.json"))`. -/
  pkgExists : Bool
  /-- outcome of `JSON.parse(fs.readFileSync(pkgPath, "utf8"))`: the parsed
  JSON value, or the read/parse exception. -/
  pkgParsed : Except String Value

/-- `/^next\.config\.(js|ts|mjs|cjs)$/.test(f)` — both dots escaped, so the
regex denotes exactly four file names. -/
def isNextConfigFile (f : String) : Bool :=
  ["next.config.js", "next.config.ts", "next.config.mjs",
    "next.config.cjs"].contains f

/-- `/^vite\.config\.(js|ts|mjs|cjs)$/.test(f)`. -/
def isViteConfigFile (f : String) : Bool :=
  ["vite.config.js", "vite.config.ts", "vite.config.mjs",
    "vite.config.cjs"].contains f

/-- `{ ...pkg.dependencies, ...pkg.devDependencies, ...pkg.peerDependencies }`.
The property reads throw on a `null` manifest (JSON `null` parses to
`null`); the spreads themselves accept anything. -/
def pkgAllDeps (pkg : Value) : Except String (List (String × Value)) := do
  let d ← jsGetPropE pkg "dependencies"
  let dev ← jsGetPropE pkg "devDependencies"
  let peer ← jsGetPropE pkg "peerDependencies"
  .ok ((spreadFields peer).foldl (fun o p => setOwn o p.1 p.2)
    ((spreadFields dev).foldl (fun o p => setOwn o p.1 p.2) (spreadFields d)))

def depTruthy (allDeps : List (String × Value)) (k : String) : Bool :=
  truthy ((getOwn allDeps k).getD .undef)

/-- The `try { ... } catch { logger.debug(...) }` block over `package.json`,
followed by the final `return "common"`: every throw inside is swallowed and
detection falls through to `"common"`. -/
def detectFromManifest (fs : FsState) : String :=
  if fs.pkgExists then
    match fs.pkgParsed with
    | .error _ => "common"
    | .ok pkg =>
      match pkgAllDeps pkg with
      | .error _ => "common"
      | .ok allDeps =>
        if depTruthy allDeps "next" || depTruthy allDeps "nextjs" then "nextjs"
        else if depTruthy allDeps "vite" then "vite"
        else if depTruthy allDeps "react" && !depTruthy allDeps "next" then
          "react"
        else "common"
  else "common"

def detectProjectType (fs : FsState) : Except String String :=
  match fs.rootFiles with
  | .error e => .error e
  | .ok files =>
    if files.any isNextConfigFile then .ok "nextjs"
    else if files.any isViteConfigFile then .ok "vite"
    else .ok (detectFromManifest fs)

/-! ## `parsePattern` (`commit-msg.js` lines 33–51)

    function parsePattern(pattern) {
      if (pattern instanceof RegExp) { return pattern; }
      if (typeof pattern === "string") {
        const match = pattern.match(/^\/(.*?)\/([gimuy]*)$/);
        if (match) { return new RegExp(match[1], match[2] || "i"); }
        return new RegExp(pattern, "i");
      }
      return /^(feat|fix|docs|style|refactor|test|chore|perf|build|ci|revert)(\(.+\))?: .+/i;
    }

We model the resulting `RegExp` by its `(source, flags)` pair (whether the
source text compiles is outside the model; the spec lets malformed text
propagate as a compile failure). -/

def defaultCommitPattern : String × String :=
  ("^(feat|fix|docs|style|refactor|test|chore|perf|build|ci|revert)(\\(.+\\))?: .+",
    "i")

def flagChar (c : Char) : Bool :=
  c = 'g' || c = 'i' || c = 'm' || c = 'u' || c = 'y'

/-- Scan for the lazy `(.*?)`'s closing `/` in `/^\/(.*?)\/([gimuy]*)$/`:
the *first* `/` after the opening one whose entire suffix consists of flag
characters (laziness prefers the shortest body that lets `([gimuy]*)$`
succeed). -/
def splitDelimGo (acc : List Char) : List Char → Option (String × String)
  | [] => none
  | c :: rest =>
    if c = '/' && rest.all flagChar then
      some (String.mk acc.reverse, String.mk rest)
    else splitDelimGo (c :: acc) rest

/-- `pattern.match(/^\/(.*?)\/([gimuy]*)$/)`, as `(match[1], match[2])`. -/
def splitDelimited (s : String) : Option (String × String) :=
  match s.data with
  | '/' :: rest => splitDelimGo [] rest
  | _ => none

def parsePattern : Value → String × String
  | .regexp src flags => (src, flags)
  | .str s =>
    match splitDelimited s with
    | some (body, flags) => (body, if flags.data.isEmpty then "i" else flags)
    | none => (s, "i")
  | _ => defaultCommitPattern

/-! ## Matching the structural commit pattern

`parseCommitMessage` (`commit-msg.js` lines 92–103) matches the message
against the compiled pattern.  The pattern in play — both the configured
`commitMsgDefaults.pattern` and `parsePattern`'s built-in default (they
differ only in the `i` flag) — is

    ^(feat|fix|docs|style|refactor|test|chore|perf|build|ci|revert)(\(.+\))?: .+

We implement its match semantics directly: the leftmost alternative that
admits an overall match wins; the optional group `(\(.+\))?` is greedy
(longest parenthesised span first, then the empty option); `.` matches any
character except a line terminator; `.+` at the end is greedy.  `^` anchors
the match at position 0, so `match[0]` is a prefix of the message. -/

def commitTypes : List String :=
  ["feat", "fix", "docs", "style", "refactor", "test", "chore", "perf",
    "build", "ci", "revert"]

/-- `.` of the regex: anything but a line terminator. -/
def dotChar (c : Char) : Bool :=
  c != '\n' && c != '\r'

def charEqCI (ci : Bool) (a b : Char) : Bool :=
  if ci then a.toLower == b.toLower else a == b

/-- Match the literal `p` against a prefix of `s` (case-insensitively under
the `i` flag), returning the rest of `s`. -/
def matchLit (ci : Bool) : List Char → List Char → Option (List Char)
  | [], s => some s
  | _ :: _, [] => none
  | p :: ps, c :: cs => if charEqCI ci p c then matchLit ci ps cs else none

/-- All splits `(pre, suf)` with `pre ++ suf = s`, shortest `pre` first. -/
def splitsAt : List Char → List (List Char × List Char)
  | [] => [([], [])]
  | c :: cs => ([], c :: cs) :: (splitsAt cs).map fun p => (c :: p.1, p.2)

/-- The trailing `: .+`: a colon, a space, then a greedy non-empty run of
`.`-characters.  Returns the matched portion. -/
def matchTail : List Char → Option (List Char)
  | c1 :: c2 :: d =>
    if c1 = ':' && c2 = ' ' then
      if (d.takeWhile dotChar).isEmpty then none
      else some (c1 :: c2 :: d.takeWhile dotChar)
    else none
  | [] => none
  | [_] => none

/-- Candidate instantiations of `(\(.+\))?` at `rest`, in the order the
backtracking engine tries them: parenthesised spans longest-inner first,
then the empty option.  Each candidate is `(group-2 text, what follows)`. -/
def scopeCandidates (rest : List Char) : List (Option (List Char) × List Char) :=
  (match rest with
   | c :: inside =>
     if c = '(' then
       (((splitsAt inside).filter fun p =>
          !p.1.isEmpty && p.1.all dotChar && p.2.head? == some ')').map
            fun p => (some (c :: (p.1 ++ [')'])), p.2.tail)).reverse
     else []
   | [] => []) ++ [(none, rest)]

/-- The result of a successful `commitMessage.match(pattern)`: the overall
match and the two capture groups. -/
structure CMatch where
  m0 : String
  typ : String
  scopePart : Option String
  deriving Repr, DecidableEq

/-- Try one alternative of the leading type group against the anchored
position. -/
def tryType (ci : Bool) (msg : List Char) (t : String) : Option CMatch :=
  match matchLit ci t.data msg with
  | none => none
  | some rest =>
    let typSlice := msg.take t.data.length
    (scopeCandidates rest).findSome? fun c =>
      (matchTail c.2).map fun mt =>
        ⟨String.mk (typSlice ++ ((c.1.getD []) ++ mt)), String.mk typSlice,
          c.1.map String.mk⟩

def matchCommitPattern (ci : Bool) (msg : String) : Option CMatch :=
  commitTypes.findSome? (tryType ci msg.data)

/-- `s.replace(pat, "")` for a string `pat` replaces the *first* occurrence
only.  `findSplit` locates it. -/
def findSplit (pat : List Char) : List Char → Option (List Char × List Char)
  | [] => if pat.isEmpty then some ([], []) else none
  | c :: cs =>
    if pat.isPrefixOf (c :: cs) then some ([], (c :: cs).drop pat.length)
    else (findSplit pat cs).map fun p => (c :: p.1, p.2)

def jsReplaceFirst (s pat repl : String) : String :=
  match findSplit pat.data s.data with
  | some p => String.mk (p.1 ++ repl.data ++ p.2)
  | none => s

/-- `String.prototype.trim` (the characters relevant to commit messages;
JS additionally strips some exotic Unicode spaces). -/
def jsWhite (c : Char) : Bool :=
  c = ' ' || c = '\t' || c = '\n' || c = '\r' ||
    c = '\x0b' || c = '\x0c'

def jsTrim (s : String) : String :=
  String.mk (((s.data.dropWhile jsWhite).reverse.dropWhile jsWhite).reverse)

structure ParsedCommit where
  type : String
  scope : Option String
  description : String
  raw : String
  deriving Repr, DecidableEq

/-- `parseCommitMessage` (`commit-msg.js` lines 92–103):

    const match = commitMessage.match(pattern);
    if (!match) { return null; }
    const [, type, scopePart] = match;
    const scope = scopePart ? scopePart.replace(/[()]/g, "") : null;
    const description = commitMessage.replace(match[0], "").trim();
    return { type, scope, description, raw: commitMessage };

(`scopePart`, when captured, always begins with `(` so it is truthy.) -/
def parseCommitMessage (ci : Bool) (msg : String) : Option ParsedCommit :=
  match matchCommitPattern ci msg with
  | none => none
  | some m =>
    some {
      type := m.typ
      scope := m.scopePart.map fun sp =>
        String.mk (sp.data.filter fun c => c != '(' && c != ')')
      description := jsTrim (jsReplaceFirst msg m.m0 "")
      raw := msg }

/-! ## Heap-instrumented `deepMerge` / `mergeArrays`

The tree model above cannot even express mutation of an argument, so the
frame property of `deepMerge` is proved over an explicit heap: objects,
arrays and regexps live at addresses, a value is a primitive or a
reference, and every JS step that writes does so either to the freshly
allocated `output` object (modelled by threading its field list) or by
allocating a new node.  Allocation appends to the heap, so "no existing
object is mutated" is exactly "the old heap is a prefix of the new one".

JS's `{ ...target }` allocates `output` on function entry and the key loop
mutates it; nothing reads or references `output` before the function
returns, so the model may equivalently allocate the node once the loop has
produced its final field list.  Unlike trees, heaps can encode cyclic
structures — on which the JS recursion genuinely diverges — so the
recursion bound is essential here, and all theorems quantify over it. -/

inductive HVal where
  | str (s : String)
  | num (n : Int)
  | bool (b : Bool)
  | null
  | undef
  | ref (a : Nat)
  deriving Repr, DecidableEq

inductive HNode where
  | obj (fields : List (String × HVal))
  | arr (elems : List HVal)
  | regexp (src flags : String)
  deriving Repr, DecidableEq

abbrev Heap := List HNode

def isObjectH (H : Heap) : HVal → Bool
  | .ref a =>
    match H.get? a with
    | some (.obj _) => true
    | some (.regexp _ _) => true
    | _ => false
  | _ => false

def isArrayH (H : Heap) : HVal → Bool
  | .ref a =>
    match H.get? a with
    | some (.arr _) => true
    | _ => false
  | _ => false

/-- Own enumerable properties contributed by `{ ...v }` (cf.
`spreadFields`). -/
def spreadFieldsH (H : Heap) : HVal → List (String × HVal)
  | .ref a =>
    match H.get? a with
    | some (.obj fs) => fs
    | some (.arr es) => es.enum.map fun p => (toString p.1, p.2)
    | _ => []
  | .str s => s.data.enum.map fun p => (toString p.1, .str (String.singleton p.2))
  | _ => []

def getOwnH (fs : List (String × HVal)) (k : String) : Option HVal :=
  (fs.find? (·.1 == k)).map (·.2)

def setOwnH : List (String × HVal) → String → HVal → List (String × HVal)
  | [], k, v => [(k, v)]
  | (k', v') :: fs, k, v =>
    if k' == k then (k', v) :: fs else (k', v') :: setOwnH fs k v

def getPropDH (H : Heap) (v : HVal) (k : String) : HVal :=
  match v with
  | .ref a =>
    match H.get? a with
    | some (.obj fs) => (getOwnH fs k).getD .undef
    | _ => .undef
  | _ => (.undef)

def keyInH (H : Heap) (t : HVal) (k : String) : Bool :=
  match t with
  | .ref a =>
    match H.get? a with
    | some (.obj fs) => fs.any (·.1 == k)
    | _ => false
  | _ => false

def arrElemsH (H : Heap) (v : HVal) : List HVal :=
  match v with
  | .ref a =>
    match H.get? a with
    | some (.arr es) => es
    | _ => []
  | _ => []

def truthyH : HVal → Bool
  | .bool b => b
  | .num n => n != 0
  | .str s => !s.data.isEmpty
  | .null => false
  | .undef => false
  | .ref _ => true

/-- `SameValueZero` over heap values: primitives by value, objects by
address — genuine reference identity this time. -/
def sameValueH : HVal → HVal → Bool
  | .str a, .str b => a == b
  | .num a, .num b => a == b
  | .bool a, .bool b => a == b
  | .null, .null => true
  | .undef, .undef => true
  | .ref a, .ref b => a == b
  | _, _ => false

/-- `JSON.stringify` over the heap (read-only; throws on cycles in JS,
modelled by bound exhaustion → `none`, conflated with the undefined
result, which is immaterial to the frame property). -/
def jsonStringifyHF : Nat → Heap → HVal → Option String
  | 0, _, _ => none
  | fuel + 1, H, v =>
    match v with
    | .str s => some ("\"" ++ jsonEscape s ++ "\"")
    | .num n => some (toString n)
    | .bool b => some (cond b "true" "false")
    | .null => some "null"
    | .undef => none
    | .ref a =>
      match H.get? a with
      | some (.obj fs) =>
        some ("\x7b" ++ String.intercalate ","
          (fs.filterMap fun p =>
            (jsonStringifyHF fuel H p.2).map
              fun sv => "\"" ++ jsonEscape p.1 ++ "\":" ++ sv) ++ "\x7d")
      | some (.arr es) =>
        some ("[" ++ String.intercalate ","
          (es.map fun e => (jsonStringifyHF fuel H e).getD "null") ++ "]")
      | some (.regexp _ _) => some "{}"
      | none => none

def mergeKeyH (fuel : Nat) (H : Heap) (item : HVal) : HVal :=
  if (isObjectH H item || isArrayH H item) &&
      truthyH (getPropDH H item "name") then
    getPropDH H item "name"
  else
    match jsonStringifyHF fuel H item with
    | some s => .str s
    | none => (.undef)

def mapSetH : List (HVal × HVal) → HVal → HVal → List (HVal × HVal)
  | [], k, v => [(k, v)]
  | (k', v') :: m, k, v =>
    if sameValueH k' k then (k', v) :: m else (k', v') :: mapSetH m k v

/-- `mergeArrays` over the heap: reads `arr1`/`arr2`'s elements, builds the
dedup map, and allocates exactly one new node — the result array. -/
def mergeArraysH (fuel : Nat) (H : Heap) (arr1 arr2 : List HVal) :
    Heap × HVal :=
  let items := ((arr1 ++ arr2).foldl
    (fun m item => mapSetH m (mergeKeyH fuel H item) item) []).map (·.2)
  (H ++ [.arr items], .ref H.length)

mutual

/-- `deepMerge` over the heap.  Returns the extended heap and the reference
to the freshly allocated `output`, or `none` when the recursion bound runs
out (which on acyclic inputs of depth below the bound never happens). -/
def deepMergeHF : Nat → Heap → HVal → HVal → Heap × Option HVal
  | 0, H, _, _ => (H, none)
  | fuel + 1, H, t, s =>
    if isObjectH H t && isObjectH H s then
      match dmKeysH fuel t H (spreadFieldsH H t) (spreadFieldsH H s) with
      | (H', none) => (H', none)
      | (H', some out) => (H' ++ [.obj out], some (.ref H'.length))
    else (H ++ [.obj (spreadFieldsH H t)], some (.ref H.length))
termination_by fuel _ _ _ => (fuel, 0)

/-- The `Object.keys(source).forEach` loop: `t` is the target, `out` the
field list of the `output` object under construction, and the last argument
the remaining `(key, source[key])` entries. -/
def dmKeysH (fuel : Nat) (t : HVal) :
    Heap → List (String × HVal) → List (String × HVal) →
      Heap × Option (List (String × HVal))
  | H, out, [] => (H, some out)
  | H, out, (k, sv) :: rest =>
    if isObjectH H sv then
      if !keyInH H t k then dmKeysH fuel t H (setOwnH out k sv) rest
      else
        match deepMergeHF fuel H (getPropDH H t k) sv with
        | (H', none) => (H', none)
        | (H', some mv) => dmKeysH fuel t H' (setOwnH out k mv) rest
    else if isArrayH H sv && isArrayH H (getPropDH H t k) then
      let r := mergeArraysH fuel H (arrElemsH H (getPropDH H t k))
        (arrElemsH H sv)
      dmKeysH fuel t r.1 (setOwnH out k r.2) rest
    else dmKeysH fuel t H (setOwnH out k sv) rest
termination_by _ _ rest => (fuel, rest.length + 1)

end

/-- `mergeArrays` only reads the heap and appends the result array. -/
theorem mergeArraysH_heap (fuel : Nat) (H : Heap) (xs ys : List HVal) :
    ∃ node, (mergeArraysH fuel H xs ys).1 = H ++ [node] := by
  exact ⟨_, rfl⟩

/-- The key loop of `deepMergeHF` only extends the heap, given that
`deepMergeHF` at the same bound does. -/
theorem dmKeysH_frame_of (fuel : Nat)
    (hdm : ∀ H t s, H <+: (deepMergeHF fuel H t s).1) (t : HVal)
    (rest : List (String × HVal)) :
    ∀ out H, H <+: (dmKeysH fuel t H out rest).1 := by
  induction rest with
  | nil => intro out H; simp [dmKeysH]
  | cons p rest ih =>
    intro out H
    obtain ⟨k, sv⟩ := p
    rw [dmKeysH]
    by_cases h1 : isObjectH H sv
    · simp only [h1, if_true]
      by_cases h2 : keyInH H t k
      · simp only [h2, Bool.not_true, Bool.false_eq_true, if_false]
        rcases hres : deepMergeHF fuel H (getPropDH H t k) sv with ⟨H', r⟩
        have hpre : H <+: H' := by
          have := hdm H (getPropDH H t k) sv
          rwa [hres] at this
        cases r with
        | none => simpa using hpre
        | some mv =>
          simp only
          exact hpre.trans (ih _ H')
      · simp only [h2, Bool.not_false, if_true]
        exact ih _ H
    · simp only [h1, Bool.false_eq_true, if_false]
      by_cases h3 : (isArrayH H sv && isArrayH H (getPropDH H t k)) = true
      · simp only [h3, if_true]
        have hpre : H <+: (mergeArraysH fuel H (arrElemsH H (getPropDH H t k))
            (arrElemsH H sv)).1 := by
          obtain ⟨node, hnode⟩ := mergeArraysH_heap fuel H
            (arrElemsH H (getPropDH H t k)) (arrElemsH H sv)
          rw [hnode]; exact List.prefix_append H [node]
        exact hpre.trans (ih _ _)
      · simp only [h3, Bool.false_eq_true, if_false]
        exact ih _ H

/-- `deepMerge` over the heap only extends it: no pre-existing object is
ever written. -/
theorem deepMergeHF_frame :
    ∀ (fuel : Nat) (H : Heap) (t s : HVal), H <+: (deepMergeHF fuel H t s).1 := by
  intro fuel
  induction fuel with
  | zero => intro H t s; simp [deepMergeHF]
  | succ fuel ih =>
    intro H t s
    rw [deepMergeHF]
    by_cases h : (isObjectH H t && isObjectH H s) = true
    · simp only [h, if_true]
      rcases hres : dmKeysH fuel t H (spreadFieldsH H t) (spreadFieldsH H s)
        with ⟨H', r⟩
      have hpre : H <+: H' := by
        have := dmKeysH_frame_of fuel ih t (spreadFieldsH H s)
          (spreadFieldsH H t) H
        rwa [hres] at this
      cases r with
      | none => simpa using hpre
      | some out => exact hpre.trans (List.prefix_append H' _)
    · simp only [h, Bool.false_eq_true, if_false]
      exact List.prefix_append H _

/-- A successfully returned `deepMergeHF` value is a reference to a node
allocated by the call itself (at or beyond the old heap's end). -/
theorem deepMergeHF_fresh (fuel : Nat) (H : Heap) (t s : HVal) (v : HVal)
    (h : (deepMergeHF fuel H t s).2 = some v) :
    ∃ a, v = .ref a ∧ H.length ≤ a := by
  cases fuel with
  | zero => simp [deepMergeHF] at h
  | succ fuel =>
    rw [deepMergeHF] at h
    by_cases hobj : (isObjectH H t && isObjectH H s) = true
    · simp only [hobj, if_true] at h
      rcases hres : dmKeysH fuel t H (spreadFieldsH H t) (spreadFieldsH H s)
        with ⟨H', r⟩
      rw [hres] at h
      cases r with
      | none => simp at h
      | some out =>
        simp only [Option.some.injEq] at h
        refine ⟨H'.length, h.symm, ?_⟩
        have hpre : H <+: H' := by
          have := dmKeysH_frame_of fuel (fun a b c => deepMergeHF_frame fuel a b c)
            t (spreadFieldsH H s) (spreadFieldsH H t) H
          rwa [hres] at this
        exact hpre.length_le
    · simp only [hobj, Bool.false_eq_true, if_false, Option.some.injEq] at h
      exact ⟨H.length, h.symm, le_refl _⟩

/-! ## Characterizing the checks dedup filter

`getConfig`'s `.filter((check, index, self) => index === self.findIndex((c)
=> c.name === check.name))` keeps an element iff it is the *first* element
bearing its name.  The lemmas below extract the two consequences the claims
need: the survivor for a name is the concatenation's first occurrence, and
the surviving names are pairwise distinct. -/

/-- `x.name` as the merge code observes it on non-nullish values. -/
def nameOfV : Value → Value
  | .obj fs => (getOwn fs "name").getD .undef
  | _ => (.undef)

def notNullish : Value → Bool
  | .null => false
  | .undef => false
  | _ => true

def isPrimV : Value → Bool
  | .str _ => true
  | .num _ => true
  | .bool _ => true
  | .null => true
  | .undef => true
  | _ => false

/-- A check descriptor whose `name` compares reflexively under `===` — i.e.
its name is a primitive (objects compare by reference). -/
def primName (v : Value) : Bool := isPrimV (nameOfV v)

theorem jsGetPropE_name_eq (v : Value) (h : notNullish v = true) :
    jsGetPropE v "name" = .ok (nameOfV v) := by
  cases v <;> simp_all [jsGetPropE, nameOfV, notNullish]

theorem jsGetPropE_ok_name (v nv : Value)
    (h : jsGetPropE v "name" = .ok nv) : nv = nameOfV v := by
  cases v <;> simp_all [jsGetPropE, nameOfV]

theorem sameValue_refl_prim (v : Value) (h : isPrimV v = true) :
    sameValue v v = true := by
  cases v <;> simp_all [sameValue, isPrimV]

theorem sameValue_symm (a b : Value) : sameValue a b = sameValue b a := by
  cases a <;> cases b <;> simp [sameValue] <;> exact
    (by constructor <;> (intro h; exact h.symm))

/-- Every element scanned strictly before the hit reported by `findIndex`
(or every element, when it reports `-1`) fails the name comparison. -/
theorem findIndexName_prefix_false (t : Value) :
    ∀ (l : List Value) (i r : Int), 0 ≤ i → findIndexName t i l = .ok r →
      ∀ (j : Nat) (hj : j < l.length), (i + j < r ∨ r = -1) →
        sameValue (nameOfV (l.get ⟨j, hj⟩)) (nameOfV t) = false := by
  intro l
  induction l with
  | nil => intro i r _ _ j hj; cases hj
  | cons c l ih =>
    intro i r hi hr j hj hlt
    rw [findIndexName] at hr
    cases hc : jsGetPropE c "name" with
    | error e => rw [hc] at hr; cases hr
    | ok nc =>
      cases ht : jsGetPropE t "name" with
      | error e => rw [hc, ht] at hr; cases hr
      | ok nt =>
        rw [hc, ht] at hr
        dsimp only at hr
        by_cases hsv : sameValue nc nt = true
        · rw [if_pos hsv] at hr
          simp only [Except.ok.injEq] at hr
          subst hr
          rcases hlt with hlt | hneg
          · omega
          · omega
        · rw [if_neg hsv] at hr
          cases j with
          | zero =>
            have h1 := jsGetPropE_ok_name c nc hc
            have h2 := jsGetPropE_ok_name t nt ht
            subst h1; subst h2
            exact (Bool.not_eq_true _).mp hsv
          | succ j' =>
            have hcond : ((i + 1 : Int) + j' < r ∨ r = -1) := by
              rcases hlt with hlt | hneg
              · left; push_cast at hlt ⊢; omega
              · right; exact hneg
            exact ih (i + 1) r (by omega) hr j'
              (by simpa using Nat.lt_of_succ_lt_succ hj) hcond

/-- The first element of a non-empty list with a primitive, reflexive name
is found by `findIndex` at position 0. -/
theorem findIndexName_self_head (d : Value) (rest : List Value)
    (hn : notNullish d = true) (hp : primName d = true) :
    findIndexName d 0 (d :: rest) = .ok 0 := by
  rw [findIndexName, jsGetPropE_name_eq d hn]
  dsimp only
  rw [if_pos (sameValue_refl_prim _ hp)]

/-- The relation "these two survivors have different names". -/
def DistinctNames (a b : Value) : Prop :=
  sameValue (nameOfV a) (nameOfV b) = false

/-- Every element the dedup pass keeps sits at a position `p ≥ n` of `self`
at which `findIndex` reports exactly `p`; and the kept elements have
pairwise distinct names. -/
theorem dedupGo_spec (self : List Value) :
    ∀ (cs : List Value) (n : Nat) (out : List Value),
      self.drop n = cs → dedupGo self (n : Int) cs = .ok out →
      (∀ v ∈ out, ∃ (p : Nat) (hp : p < self.length),
        n ≤ p ∧ self.get ⟨p, hp⟩ = v ∧
          findIndexName v 0 self = .ok (p : Int)) ∧
      out.Pairwise DistinctNames := by
  intro cs
  induction cs with
  | nil =>
    intro n out _ hout
    rw [dedupGo] at hout
    simp only [Except.ok.injEq] at hout
    subst hout
    refine ⟨?_, List.Pairwise.nil⟩
    intro v hv; cases hv
  | cons c cs ih =>
    intro n out hdrop hout
    have hn : n < self.length := by
      by_contra hge
      rw [List.drop_eq_nil_of_le (by omega)] at hdrop
      cases hdrop
    have hcons := List.drop_eq_getElem_cons hn
    rw [hdrop] at hcons
    injection hcons.symm with hget0 hdrop'
    have hget : self.get ⟨n, hn⟩ = c := by
      rw [List.get_eq_getElem]; exact hget0
    have hdropn : self.drop (n + 1) = cs := hdrop'
    rw [dedupGo] at hout
    cases hj : findIndexName c 0 self with
    | error e => rw [hj] at hout; cases hout
    | ok j =>
      rw [hj] at hout
      cases hrest : dedupGo self ((n : Int) + 1) cs with
      | error e => rw [hrest] at hout; cases hout
      | ok rest =>
        rw [hrest] at hout
        simp only [Except.ok.injEq] at hout
        have hcast : ((n : Int) + 1) = ((n + 1 : Nat) : Int) := by push_cast; ring
        rw [hcast] at hrest
        obtain ⟨ihMem, ihPW⟩ := ih (n + 1) rest hdropn hrest
        by_cases hkeep : (j == (n : Int)) = true
        · have hjn : j = (n : Int) := by simpa using hkeep
          subst hjn
          rw [if_pos (by simp)] at hout
          subst hout
          constructor
          · intro v hv
            rcases List.mem_cons.1 hv with rfl | hv
            · exact ⟨n, hn, le_refl n, hget, hj⟩
            · obtain ⟨p, hp, hnp, hgp, hfp⟩ := ihMem v hv
              exact ⟨p, hp, by omega, hgp, hfp⟩
          · refine List.Pairwise.cons ?_ ihPW
            intro v hv
            obtain ⟨p, hp, hnp, hgp, hfp⟩ := ihMem v hv
            have hpf := findIndexName_prefix_false v self 0 (p : Int)
              (le_refl 0) hfp n hn (by left; omega)
            rw [hget] at hpf
            exact hpf
        · rw [if_neg (by simpa using hkeep)] at hout
          subst hout
          constructor
          · intro v hv
            obtain ⟨p, hp, hnp, hgp, hfp⟩ := ihMem v hv
            exact ⟨p, hp, by omega, hgp, hfp⟩
          · exact ihPW

/-- The dedup filter keeps the names of its survivors pairwise distinct —
unconditionally so, whenever it completes without a `TypeError`. -/
theorem dedupByName_pairwise (self out : List Value)
    (h : dedupByName self = .ok out) : out.Pairwise DistinctNames := by
  have hspec := dedupGo_spec self self 0 out (by simp) (by simpa using h)
  exact hspec.2

/-- When the concatenation's head is a check descriptor with a primitive
name, it survives the dedup in first position, and no later survivor shares
its name. -/
theorem dedupByName_head (d : Value) (rest out : List Value)
    (hn : notNullish d = true) (hp : primName d = true)
    (h : dedupByName (d :: rest) = .ok out) :
    ∃ tl, out = d :: tl ∧
      ∀ v ∈ tl, sameValue (nameOfV v) (nameOfV d) = false := by
  rw [dedupByName, dedupGo, findIndexName_self_head d rest hn hp] at h
  cases hrest : dedupGo (d :: rest) (0 + 1) rest with
  | error e => rw [hrest] at h; cases h
  | ok tl =>
    rw [hrest] at h
    dsimp only at h
    rw [if_pos (by simp : ((0 : Int) == 0) = true)] at h
    simp only [Except.ok.injEq] at h
    refine ⟨tl, h.symm, ?_⟩
    intro v hv
    have hcast : ((0 : Int) + 1) = ((1 : Nat) : Int) := by norm_num
    rw [hcast] at hrest
    obtain ⟨ihMem, _⟩ := dedupGo_spec (d :: rest) rest 1 tl (by simp) hrest
    obtain ⟨p, hplt, hp1, hgp, hfp⟩ := ihMem v hv
    have hpf := findIndexName_prefix_false v (d :: rest) 0 (p : Int)
      (le_refl 0) hfp 0 (by simp) (by left; push_cast; omega)
    have hd0 : (d :: rest).get ⟨0, by simp⟩ = d := rfl
    rw [hd0] at hpf
    rw [sameValue_symm]
    exact hpf

/-! ## Well-typedness of `enabled` through the merge

The invariant claim needs that every value the merge can place under an
`enabled` key is boolean.  `EnabledGood v` says every binding of the key
`"enabled"` anywhere inside `v` is a boolean, and the lemmas below push it
through `deepMergeF`.  The auxiliary digit lemma rules out an array spread
ever manufacturing an `"enabled"` key (its keys are decimal numerals). -/

theorem digitChar_isDigit (m : Nat) (h : m < 10) :
    (Nat.digitChar m).isDigit = true := by
  interval_cases m <;> decide

theorem toDigitsCore_digits :
    ∀ (fuel n : Nat) (ds : List Char), (∀ c ∈ ds, c.isDigit = true) →
      ∀ c ∈ Nat.toDigitsCore 10 fuel n ds, c.isDigit = true := by
  intro fuel
  induction fuel with
  | zero => intro n ds hds c hc; exact hds c hc
  | succ fuel ih =>
    intro n ds hds c hc
    rw [Nat.toDigitsCore] at hc
    have hd : ∀ c' ∈ (Nat.digitChar (n % 10) :: ds), c'.isDigit = true := by
      intro c' hc'
      rcases List.mem_cons.1 hc' with rfl | hc'
      · exact digitChar_isDigit _ (Nat.mod_lt n (by omega))
      · exact hds c' hc'
    by_cases h0 : n / 10 = 0
    · rw [if_pos h0] at hc
      exact hd c hc
    · rw [if_neg h0] at hc
      exact ih (n / 10) _ hd c hc

/-- The key an array spread generates for index `i` is a decimal numeral,
never `"enabled"`. -/
theorem toString_nat_ne_enabled (n : Nat) : toString n ≠ "enabled" := by
  intro h
  have hdig : ∀ c ∈ Nat.toDigits 10 n, c.isDigit = true :=
    toDigitsCore_digits (n + 1) n [] (by intro c hc; cases hc)
  have hdata : Nat.toDigits 10 n = "enabled".data := by
    have hstr : (Nat.toDigits 10 n).asString = "enabled" := h
    have := congrArg String.data hstr
    simpa [List.asString] using this
  have he : ('e' : Char).isDigit = true := by
    apply hdig
    rw [hdata]
    decide
  cases he

/-- Every binding of the key `"enabled"` anywhere inside the value is a
boolean. -/
inductive EnabledGood : Value → Prop where
  | str : ∀ s, EnabledGood (.str s)
  | num : ∀ n, EnabledGood (.num n)
  | bool : ∀ b, EnabledGood (.bool b)
  | null : EnabledGood .null
  | undef : EnabledGood .undef
  | regexp : ∀ src flags, EnabledGood (.regexp src flags)
  | obj : ∀ fs, (∀ p ∈ fs, p.1 = "enabled" → ∃ b, p.2 = Value.bool b) →
      (∀ p ∈ fs, EnabledGood p.2) → EnabledGood (.obj fs)
  | arr : ∀ es, (∀ v ∈ es, EnabledGood v) → EnabledGood (.arr es)

/-- `EnabledGood`, restated for a field list. -/
def GoodFields (fs : List (String × Value)) : Prop :=
  ∀ p ∈ fs, (p.1 = "enabled" → ∃ b, p.2 = Value.bool b) ∧ EnabledGood p.2

theorem enabledGood_of_goodFields {fs : List (String × Value)}
    (h : GoodFields fs) : EnabledGood (.obj fs) :=
  .obj fs (fun p hp he => (h p hp).1 he) (fun p hp => (h p hp).2)

theorem goodFields_of_enabledGood {fs : List (String × Value)}
    (h : EnabledGood (.obj fs)) : GoodFields fs := by
  cases h with
  | obj _ h1 h2 => exact fun p hp => ⟨h1 p hp, h2 p hp⟩

/-- An executable sufficient check for `EnabledGood` (the `Nat` is a
recursion bound; concrete configuration literals check by `rfl`). -/
def enabledGoodChk : Nat → Value → Bool
  | 0, _ => false
  | fuel + 1, v =>
    match v with
    | .obj fs => fs.all fun p =>
        (p.1 != "enabled" ||
          (match p.2 with | .bool _ => true | _ => false)) &&
        enabledGoodChk fuel p.2
    | .arr es => es.all (enabledGoodChk fuel)
    | _ => true

theorem enabledGood_of_chk :
    ∀ (fuel : Nat) (v : Value), enabledGoodChk fuel v = true →
      EnabledGood v := by
  intro fuel
  induction fuel with
  | zero => intro v h; cases h
  | succ fuel ih =>
    intro v h
    cases v with
    | obj fs =>
      rw [enabledGoodChk] at h
      simp only [List.all_eq_true, Bool.and_eq_true] at h
      refine .obj fs ?_ ?_
      · intro p hp he
        have h1 := (h p hp).1
        rw [he] at h1
        simp only [bne_self_eq_false, Bool.false_or] at h1
        cases hv : p.2 <;> rw [hv] at h1 <;> first
          | exact ⟨_, rfl⟩
          | cases h1
      · intro p hp
        exact ih p.2 (h p hp).2
    | arr es =>
      rw [enabledGoodChk] at h
      simp only [List.all_eq_true] at h
      exact .arr es fun v hv => ih v (h v hv)
    | str s => exact .str s
    | num n => exact .num n
    | bool b => exact .bool b
    | null => exact .null
    | undef => exact .undef
    | regexp src flags => exact .regexp src flags

theorem goodFields_spread (v : Value) (hg : EnabledGood v) :
    GoodFields (spreadFields v) := by
  cases hg with
  | obj fs h1 h2 => exact fun p hp => ⟨h1 p hp, h2 p hp⟩
  | arr es hv =>
    intro p hp
    simp only [spreadFields, List.mem_map] at hp
    obtain ⟨q, hq, rfl⟩ := hp
    refine ⟨fun he => absurd he (toString_nat_ne_enabled q.1), ?_⟩
    exact hv q.2 (List.snd_mem_of_mem_enum hq)
  | str s =>
    intro p hp
    simp only [spreadFields, List.mem_map] at hp
    obtain ⟨q, hq, rfl⟩ := hp
    exact ⟨fun he => absurd he (toString_nat_ne_enabled q.1), .str _⟩
  | num n => intro p hp; cases hp
  | bool b => intro p hp; cases hp
  | null => intro p hp; cases hp
  | undef => intro p hp; cases hp
  | regexp src flags => intro p hp; cases hp

theorem goodFields_setOwn {fs : List (String × Value)} {k : String}
    {v : Value} (hfs : GoodFields fs)
    (hk : k = "enabled" → ∃ b, v = Value.bool b) (hv : EnabledGood v) :
    GoodFields (setOwn fs k v) := by
  induction fs with
  | nil =>
    intro p hp
    rcases List.mem_singleton.1 hp with rfl
    exact ⟨hk, hv⟩
  | cons q fs ih =>
    obtain ⟨k', v'⟩ := q
    rw [setOwn]
    by_cases heq : (k' == k) = true
    · rw [if_pos heq]
      intro p hp
      rcases List.mem_cons.1 hp with rfl | hp
      · have hkk : k' = k := by simpa using heq
        exact ⟨fun he => hk (by rw [← hkk]; exact he), hv⟩
      · exact hfs p (List.mem_cons_of_mem _ hp)
    · rw [if_neg heq]
      intro p hp
      rcases List.mem_cons.1 hp with rfl | hp
      · exact hfs _ (List.mem_cons_self _ _)
      · exact ih (fun q hq => hfs q (List.mem_cons_of_mem _ hq)) p hp

theorem getOwn_some_mem {fs : List (String × Value)} {k : String}
    {v : Value} (h : getOwn fs k = some v) :
    ∃ p ∈ fs, (p.1 == k) = true ∧ p.2 = v := by
  rw [getOwn] at h
  cases hfind : List.find? (·.1 == k) fs with
  | none => rw [hfind] at h; cases h
  | some p =>
    rw [hfind] at h
    refine ⟨p, List.mem_of_find?_eq_some hfind, ?_, ?_⟩
    · have h1 := List.find?_some hfind
      simpa using h1
    · simpa using h

theorem enabledGood_getPropD (t : Value) (k : String)
    (ht : EnabledGood t) : EnabledGood (getPropD t k) := by
  cases ht with
  | obj fs h1 h2 =>
    rw [getPropD]
    cases hf : getOwn fs k with
    | none => exact .undef
    | some v =>
      rw [Option.getD_some]
      obtain ⟨p, hp, _, hv⟩ := getOwn_some_mem hf
      rw [← hv]
      exact h2 p hp
  | str s => exact .undef
  | num n => exact .undef
  | bool b => exact .undef
  | null => exact .undef
  | undef => exact .undef
  | regexp src flags => exact .undef
  | arr es hv => exact (.undef)

/-- If an `enabled` own-property exists on an `EnabledGood` object, it is a
boolean. -/
theorem enabled_bool_of_getOwn {fs : List (String × Value)} {v : Value}
    (hg : GoodFields fs) (h : getOwn fs "enabled" = some v) :
    ∃ b, v = Value.bool b := by
  obtain ⟨p, hp, hkey, hv⟩ := getOwn_some_mem h
  rw [← hv]
  exact (hg p hp).1 (by simpa using hkey)

theorem enabledGood_arrElems (w : Value) (hw : EnabledGood w) :
    ∀ v ∈ arrElems w, EnabledGood v := by
  cases hw with
  | arr es hv => exact hv
  | obj fs h1 h2 => intro v hv; cases hv
  | str s => intro v hv; cases hv
  | num n => intro v hv; cases hv
  | bool b => intro v hv; cases hv
  | null => intro v hv; cases hv
  | undef => intro v hv; cases hv
  | regexp src flags => intro v hv; cases hv

theorem mapSet_values_subset (m : List (Value × Value)) (k w v : Value)
    (h : v ∈ (mapSet m k w).map (·.2)) : v ∈ m.map (·.2) ∨ v = w := by
  induction m with
  | nil =>
    rw [mapSet] at h
    simp only [List.map_cons, List.map_nil, List.mem_singleton] at h
    exact Or.inr h
  | cons q m ih =>
    obtain ⟨k', v'⟩ := q
    rw [mapSet] at h
    by_cases heq : sameValue k' k = true
    · rw [if_pos heq] at h
      simp only [List.map_cons, List.mem_cons] at h
      rcases h with rfl | h
      · exact Or.inr rfl
      · exact Or.inl (by simp only [List.map_cons, List.mem_cons]; exact Or.inr h)
    · rw [if_neg heq] at h
      simp only [List.map_cons, List.mem_cons] at h
      rcases h with rfl | h
      · exact Or.inl (by simp)
      · rcases ih h with h' | h'
        · exact Or.inl (by simp only [List.map_cons, List.mem_cons]; exact Or.inr h')
        · exact Or.inr h'

/-- Every element of `mergeArrays`' result comes from one of the two input
arrays. -/
theorem mergeArraysF_mem (fuel : Nat) (xs ys : List Value) (v : Value)
    (h : v ∈ mergeArraysF fuel xs ys) : v ∈ xs ++ ys := by
  rw [mergeArraysF] at h
  suffices hgen : ∀ (l : List Value) (m : List (Value × Value)),
      v ∈ (l.foldl (fun m item => mapSet m (mergeKey fuel item) item) m).map
        (·.2) → v ∈ m.map (·.2) ∨ v ∈ l by
    rcases hgen (xs ++ ys) [] h with h' | h'
    · cases h'
    · exact h'
  intro l
  induction l with
  | nil => intro m h'; exact Or.inl h'
  | cons it l ih =>
    intro m h'
    rw [List.foldl_cons] at h'
    rcases ih _ h' with h'' | h''
    · rcases mapSet_values_subset m _ it v h'' with h3 | h3
      · exact Or.inl h3
      · exact Or.inr (by rw [h3]; exact List.mem_cons_self _ _)
    · exact Or.inr (List.mem_cons_of_mem _ h'')

/-- The merge preserves `EnabledGood`: merging two values all of whose
`enabled` bindings are boolean yields a value all of whose `enabled`
bindings are boolean. -/
theorem enabledGood_deepMergeF :
    ∀ (fuel : Nat) (t s : Value), EnabledGood t → EnabledGood s →
      EnabledGood (deepMergeF fuel t s) := by
  intro fuel
  induction fuel with
  | zero =>
    intro t s ht _
    exact enabledGood_of_goodFields (goodFields_spread t ht)
  | succ fuel ih =>
    intro t s ht hs
    rw [deepMergeF]
    by_cases hobj : (isObject t && isObject s) = true
    · rw [if_pos hobj]
      apply enabledGood_of_goodFields
      have hsrc : GoodFields (spreadFields s) := goodFields_spread s hs
      have hinit : GoodFields (spreadFields t) := goodFields_spread t ht
      clear hobj hs
      generalize spreadFields s = src at hsrc
      generalize spreadFields t = out at hinit
      induction src generalizing out with
      | nil => exact hinit
      | cons p src ihs =>
        rw [List.foldl_cons]
        have hp := hsrc p (List.mem_cons_self _ _)
        have hsrc' : GoodFields src := fun q hq =>
          hsrc q (List.mem_cons_of_mem _ hq)
        apply ihs hsrc'
        rw [dmStep]
        obtain ⟨k, sv⟩ := p
        dsimp only at hp ⊢
        by_cases h1 : isObject sv = true
        · rw [if_pos h1]
          by_cases h2 : keyIn t k = true
          · rw [if_neg (by simp [h2])]
            refine goodFields_setOwn hinit ?_ ?_
            · intro he
              obtain ⟨b, hb⟩ := hp.1 he
              rw [hb] at h1
              cases h1
            · exact ih (getPropD t k) sv (enabledGood_getPropD t k ht) hp.2
          · rw [if_pos (by simp [h2])]
            exact goodFields_setOwn hinit hp.1 hp.2
        · rw [if_neg h1]
          by_cases h3 : (isArray sv && isArray (getPropD t k)) = true
          · rw [if_pos h3]
            refine goodFields_setOwn hinit ?_ ?_
            · intro he
              obtain ⟨b, hb⟩ := hp.1 he
              rw [hb] at h3
              cases h3
            · refine .arr _ ?_
              intro v hv
              rcases List.mem_append.1 (mergeArraysF_mem fuel _ _ v hv)
                with h4 | h4
              · exact enabledGood_arrElems (getPropD t k)
                  (enabledGood_getPropD t k ht) v h4
              · exact enabledGood_arrElems sv hp.2 v h4
          · rw [if_neg h3]
            exact goodFields_setOwn hinit hp.1 hp.2
    · rw [if_neg hobj]
      exact enabledGood_of_goodFields (goodFields_spread t ht)

/-! ## Presence of the hook sections through the merge -/

theorem getOwn_setOwn_self : ∀ (fs : List (String × Value)) (k : String)
    (v : Value), getOwn (setOwn fs k v) k = some v := by
  intro fs k v
  induction fs with
  | nil => simp [setOwn, getOwn]
  | cons q fs ih =>
    obtain ⟨k', v'⟩ := q
    rw [setOwn]
    by_cases heq : (k' == k) = true
    · rw [if_pos heq]
      simp [getOwn, List.find?, heq]
    · rw [if_neg heq]
      have hne := (Bool.not_eq_true _).mp heq
      simp only [getOwn, List.find?, hne] at ih ⊢
      exact ih

theorem getOwn_setOwn_ne : ∀ (fs : List (String × Value)) (k : String)
    (v : Value) (k0 : String), (k == k0) = false →
    getOwn (setOwn fs k v) k0 = getOwn fs k0 := by
  intro fs k v k0 hne
  induction fs with
  | nil => simp [setOwn, getOwn, List.find?, hne]
  | cons q fs ih =>
    obtain ⟨k', v'⟩ := q
    rw [setOwn]
    by_cases heq : (k' == k) = true
    · rw [if_pos heq]
      have hk' : (k' == k0) = false := by
        have h1 : k' = k := by simpa using heq
        rw [h1]; exact hne
      simp [getOwn, List.find?, hk']
    · rw [if_neg heq]
      by_cases h0 : (k' == k0) = true
      · simp only [getOwn, List.find?, h0]
      · have h0' := (Bool.not_eq_true _).mp h0
        simp only [getOwn, List.find?, h0'] at ih ⊢
        exact ih

theorem getOwn_setOwn_isSome {fs : List (String × Value)} {k0 : String}
    (k : String) (v : Value) (h : (getOwn fs k0).isSome = true) :
    (getOwn (setOwn fs k v) k0).isSome = true := by
  by_cases heq : (k == k0) = true
  · have hk : k = k0 := by simpa using heq
    rw [hk, getOwn_setOwn_self]
    rfl
  · rw [getOwn_setOwn_ne fs k v k0 ((Bool.not_eq_true _).mp heq)]
    exact h

/-- `deepMerge` never loses a key of an object target. -/
theorem deepMergeF_keeps_keys :
    ∀ (fuel : Nat) (fsv : List (String × Value)) (sv : Value) (k0 : String),
      (getOwn fsv k0).isSome = true →
      ∃ out, deepMergeF fuel (.obj fsv) sv = .obj out ∧
        (getOwn out k0).isSome = true := by
  intro fuel fsv sv k0 h
  cases fuel with
  | zero => exact ⟨fsv, rfl, h⟩
  | succ fuel =>
    rw [deepMergeF]
    by_cases hobj : (isObject (.obj fsv) && isObject sv) = true
    · rw [if_pos hobj]
      refine ⟨_, rfl, ?_⟩
      have hinit : (getOwn (spreadFields (.obj fsv)) k0).isSome = true := h
      generalize spreadFields sv = src
      generalize spreadFields (Value.obj fsv) = out at hinit
      induction src generalizing out with
      | nil => exact hinit
      | cons p src ihs =>
        rw [List.foldl_cons]
        apply ihs
        rw [dmStep]
        obtain ⟨k, w⟩ := p
        dsimp only
        by_cases h1 : isObject w = true
        · rw [if_pos h1]
          by_cases h2 : keyIn (.obj fsv) k = true
          · rw [if_neg (by simp [h2])]
            exact getOwn_setOwn_isSome _ _ hinit
          · rw [if_pos (by simp [h2])]
            exact getOwn_setOwn_isSome _ _ hinit
        · rw [if_neg h1]
          by_cases h3 : (isArray w && isArray (getPropD (.obj fsv) k)) = true
          · rw [if_pos h3]
            exact getOwn_setOwn_isSome _ _ hinit
          · rw [if_neg h3]
            exact getOwn_setOwn_isSome _ _ hinit
    · rw [if_neg hobj]
      exact ⟨fsv, rfl, h⟩

/-- The bindings of `v` at key `K` (if any) are objects — the shape
requirement on an overlay layer for the section key `K`. -/
def SectionOk (v : Value) (K : String) : Prop :=
  ∀ p ∈ spreadFields v, p.1 = K → isObject p.2 = true

/-- Executable check for `SectionOk` over the three defaults keys. -/
def defaultsOkChk (v : Value) : Bool :=
  (spreadFields v).all fun p =>
    (p.1 != "preCommitDefaults" || isObject p.2) &&
    (p.1 != "prePushDefaults" || isObject p.2) &&
    (p.1 != "commitMsgDefaults" || isObject p.2)

theorem sectionOk_of_defaultsOkChk {v : Value} (h : defaultsOkChk v = true) :
    SectionOk v "preCommitDefaults" ∧ SectionOk v "prePushDefaults" ∧
      SectionOk v "commitMsgDefaults" := by
  rw [defaultsOkChk] at h
  simp only [List.all_eq_true, Bool.and_eq_true] at h
  refine ⟨?_, ?_, ?_⟩ <;> intro p hp hk <;>
    [have h1 := (h p hp).1.1; have h1 := (h p hp).1.2; have h1 := (h p hp).2]
  all_goals
    rw [hk] at h1
    simpa using h1

/-- `t` carries an object at section key `K` that has an `enabled` own
property. -/
def HasEnabledSection (t : Value) (K : String) : Prop :=
  ∃ fs w, getPropD t K = .obj fs ∧ getOwn fs "enabled" = some w

theorem keyIn_of_getOwn {fs : List (String × Value)} {K : String} {w : Value}
    (h : getOwn fs K = some w) : keyIn (.obj fs) K = true := by
  obtain ⟨p, hp, hk, _⟩ := getOwn_some_mem h
  rw [keyIn]
  exact List.any_eq_true.2 ⟨p, hp, hk⟩

/-- The merge preserves "section `K` is an object with an `enabled`
property", provided the source's `K` bindings (if any) are objects. -/
theorem hasEnabledSection_deepMergeF
    (fuel : Nat) (t s : Value) (K : String) (ht : isObject t = true)
    (hsec : HasEnabledSection t K) (hs : SectionOk s K) :
    isObject (deepMergeF fuel t s) = true ∧
      HasEnabledSection (deepMergeF fuel t s) K := by
  obtain ⟨fsK, w, hget, hen⟩ := hsec
  obtain ⟨fst, rfl⟩ : ∃ fst, t = Value.obj fst := by
    cases t with
    | obj fst => exact ⟨fst, rfl⟩
    | regexp src flags => simp [getPropD] at hget
    | str s1 => simp [isObject] at ht
    | num n1 => simp [isObject] at ht
    | bool b1 => simp [isObject] at ht
    | null => simp [isObject] at ht
    | undef => simp [isObject] at ht
    | arr es => simp [isObject] at ht
  have hgetOwn : getOwn fst K = some (.obj fsK) := by
    rw [getPropD] at hget
    cases hf : getOwn fst K with
    | none => rw [hf] at hget; cases hget
    | some u => rw [hf] at hget; rw [Option.getD_some] at hget; rw [hget]
  cases fuel with
  | zero =>
    refine ⟨rfl, fsK, w, ?_, hen⟩
    rw [deepMergeF]
    show getPropD (.obj (spreadFields (.obj fst))) K = _
    rw [getPropD, spreadFields, hgetOwn, Option.getD_some]
  | succ fuel =>
    rw [deepMergeF]
    by_cases hobj : (isObject (.obj fst) && isObject s) = true
    · rw [if_pos hobj]
      refine ⟨rfl, ?_⟩
      have hsrc : ∀ p ∈ spreadFields s, p.1 = K → isObject p.2 = true := hs
      have hinit : ∃ fsK' w', getOwn (spreadFields (.obj fst)) K =
          some (.obj fsK') ∧ getOwn fsK' "enabled" = some w' :=
        ⟨fsK, w, hgetOwn, hen⟩
      generalize spreadFields s = src at hsrc
      generalize spreadFields (Value.obj fst) = out at hinit
      suffices hfold : ∃ fsK' w', getOwn
          (src.foldl (dmStep (deepMergeF fuel) (.obj fst) (mergeArraysF fuel)) out) K =
          some (.obj fsK') ∧ getOwn fsK' "enabled" = some w' by
        obtain ⟨fsK', w', h1, h2⟩ := hfold
        exact ⟨fsK', w', by rw [getPropD, h1, Option.getD_some], h2⟩
      induction src generalizing out with
      | nil => exact hinit
      | cons p src ihs =>
        rw [List.foldl_cons]
        apply ihs (fun q hq => hsrc q (List.mem_cons_of_mem _ hq))
        obtain ⟨fsK', w', hout, hen'⟩ := hinit
        rw [dmStep]
        obtain ⟨k, sv⟩ := p
        dsimp only
        by_cases hkK : (k == K) = true
        · have hkeq : k = K := by simpa using hkK
          subst hkeq
          have hsvObj : isObject sv = true :=
            hsrc (k, sv) (List.mem_cons_self _ _) rfl
          rw [if_pos hsvObj]
          have hkeyIn : keyIn (.obj fst) k = true := keyIn_of_getOwn hgetOwn
          rw [if_neg (by simp [hkeyIn])]
          have hgp : getPropD (.obj fst) k = .obj fsK := by
            rw [getPropD, hgetOwn, Option.getD_some]
          rw [hgp]
          obtain ⟨out', hdm, hsome⟩ := deepMergeF_keeps_keys fuel fsK sv
            "enabled" (by rw [hen]; rfl)
          rw [hdm]
          obtain ⟨w'', hw''⟩ := Option.isSome_iff_exists.1 hsome
          exact ⟨out', w'', by rw [getOwn_setOwn_self], hw''⟩
        · have hne : (k == K) = false := (Bool.not_eq_true _).mp hkK
          by_cases h1 : isObject sv = true
          · rw [if_pos h1]
            by_cases h2 : keyIn (.obj fst) k = true
            · rw [if_neg (by simp [h2]), getOwn_setOwn_ne _ _ _ _ hne]
              exact ⟨fsK', w', hout, hen'⟩
            · rw [if_pos (by simp [h2]), getOwn_setOwn_ne _ _ _ _ hne]
              exact ⟨fsK', w', hout, hen'⟩
          · rw [if_neg h1]
            by_cases h3 : (isArray sv && isArray (getPropD (.obj fst) k)) = true
            · rw [if_pos h3, getOwn_setOwn_ne _ _ _ _ hne]
              exact ⟨fsK', w', hout, hen'⟩
            · rw [if_neg h3, getOwn_setOwn_ne _ _ _ _ hne]
              exact ⟨fsK', w', hout, hen'⟩
    · rw [if_neg hobj]
      refine ⟨rfl, fsK, w, ?_, hen⟩
      show getPropD (.obj (spreadFields (.obj fst))) K = _
      rw [getPropD, spreadFields, hgetOwn, Option.getD_some]

/-! ## Chaining through `mergedConfigOf` and `getConfig` -/

theorem getOwn_foldl_pres (K : String) (P : Value → Prop) :
    ∀ (fs : List (String × Value)) (out : List (String × Value)),
      (∃ w, getOwn out K = some w ∧ P w) → (∀ p ∈ fs, p.1 = K → P p.2) →
      ∃ w, getOwn (fs.foldl (fun o p => setOwn o p.1 p.2) out) K = some w ∧
        P w := by
  intro fs
  induction fs with
  | nil => intro out hout _; exact hout
  | cons p fs ih =>
    intro out hout hfs
    rw [List.foldl_cons]
    apply ih
    · obtain ⟨k, v⟩ := p
      by_cases heq : (k == K) = true
      · have hk : k = K := by simpa using heq
        refine ⟨v, ?_, hfs (k, v) (List.mem_cons_self _ _) hk⟩
        show getOwn (setOwn out k v) K = some v
        rw [hk, getOwn_setOwn_self]
      · obtain ⟨w, h1, h2⟩ := hout
        exact ⟨w, by
          show getOwn (setOwn out k v) K = some w
          rw [getOwn_setOwn_ne _ _ _ _ ((Bool.not_eq_true _).mp heq)]
          exact h1, h2⟩
    · exact fun q hq => hfs q (List.mem_cons_of_mem _ hq)

theorem getOwn_filter_ne (k1 k0 : String) (h : (k0 == k1) = false) :
    ∀ fs : List (String × Value),
      getOwn (fs.filter (·.1 != k1)) k0 = getOwn fs k0 := by
  intro fs
  induction fs with
  | nil => rfl
  | cons p fs ih =>
    obtain ⟨k', v'⟩ := p
    rw [List.filter_cons]
    by_cases hk : (k' != k1) = true
    · rw [if_pos hk]
      by_cases h0 : (k' == k0) = true
      · simp only [getOwn, List.find?, h0]
      · have h0' := (Bool.not_eq_true _).mp h0
        simp only [getOwn, List.find?, h0'] at ih ⊢
        exact ih
    · rw [if_neg hk]
      have hk1 : k' = k1 := by simpa using hk
      have h0 : (k' == k0) = false := by
        rw [hk1, beq_eq_false_iff_ne]
        intro hEq
        rw [hEq] at h
        simp at h
      simp only [getOwn, List.find?, h0] at ih ⊢
      exact ih

theorem getPropD_deleteOwn_ne (v : Value) (k1 k0 : String)
    (h : (k0 == k1) = false) :
    getPropD (deleteOwn v k1) k0 = getPropD v k0 := by
  cases v with
  | obj fs =>
    rw [deleteOwn, getPropD, getPropD, getOwn_filter_ne k1 k0 h]
  | str s => rfl
  | num n => rfl
  | bool b => rfl
  | null => rfl
  | undef => rfl
  | regexp src flags => rfl
  | arr es => rfl

theorem enabledGood_deleteOwn (v : Value) (k : String)
    (h : EnabledGood v) : EnabledGood (deleteOwn v k) := by
  cases h with
  | obj fs h1 h2 =>
    refine .obj _ ?_ ?_ <;> intro p hp <;>
      have hp' := List.mem_of_mem_filter hp
    · exact h1 p hp'
    · exact h2 p hp'
  | str s => exact .str s
  | num n => exact .num n
  | bool b => exact .bool b
  | null => exact .null
  | undef => exact .undef
  | regexp src flags => exact .regexp src flags
  | arr es hv => exact .arr es hv

theorem isObject_deleteOwn {v : Value} (h : isObject v = true) :
    isObject (deleteOwn v "environments") = true := by
  cases v <;> simp_all [deleteOwn, isObject]

/-- The four possible environment overlays. -/
theorem envConfigOf_cases (e : EnvVars) :
    envConfigOf e = getPropD (getPropD (commonConfigVal e) "environments")
      "development" ∨
    envConfigOf e = getPropD (getPropD (commonConfigVal e) "environments")
      "production" ∨
    envConfigOf e = getPropD (getPropD (commonConfigVal e) "environments")
      "ci" ∨
    envConfigOf e = .obj [] := by
  rw [envConfigOf, getEnvironment]
  by_cases h1 : (envEq e.ci "true" || envEq e.githubActions "true") = true
  · rw [if_pos h1]
    right; right; left; rfl
  · rw [if_neg h1]
    by_cases h2 : envEq e.nodeEnv "production" = true
    · rw [if_pos h2]
      right; left; rfl
    · rw [if_neg h2]
      by_cases h3 : envEq e.nodeEnv "test" = true
      · rw [if_pos h3]
        right; right; right; rfl
      · rw [if_neg h3]
        left; rfl

theorem envConfigOf_good (e : EnvVars) : EnabledGood (envConfigOf e) := by
  have hcom : EnabledGood (commonConfigVal e) :=
    enabledGood_of_chk 10 _ rfl
  rcases envConfigOf_cases e with h | h | h | h <;> rw [h]
  · exact enabledGood_getPropD _ _ (enabledGood_getPropD _ _ hcom)
  · exact enabledGood_getPropD _ _ (enabledGood_getPropD _ _ hcom)
  · exact enabledGood_getPropD _ _ (enabledGood_getPropD _ _ hcom)
  · exact enabledGood_of_chk 1 _ rfl

theorem envConfigOf_defaultsOk (e : EnvVars) :
    SectionOk (envConfigOf e) "preCommitDefaults" ∧
    SectionOk (envConfigOf e) "prePushDefaults" ∧
    SectionOk (envConfigOf e) "commitMsgDefaults" := by
  rcases envConfigOf_cases e with h | h | h | h <;> rw [h] <;>
    exact sectionOk_of_defaultsOkChk rfl

/-- The merged configuration keeps every `enabled` binding boolean when the
project and user overlays do. -/
theorem mergedConfigOf_good (fuel : Nat) (e : EnvVars) (pt : String)
    (pc uc : Value) (hpc : EnabledGood pc) (huc : EnabledGood uc) :
    EnabledGood (mergedConfigOf fuel e pt pc uc) := by
  rw [mergedConfigOf]
  have hcom : EnabledGood (commonConfigVal e) := enabledGood_of_chk 10 _ rfl
  have hproj : EnabledGood (projectCfgOf pt pc) := by
    rw [projectCfgOf]
    by_cases h : (pt == "common") = true
    · rw [if_pos h]; exact enabledGood_of_chk 1 _ rfl
    · rw [if_neg h]; exact hpc
  exact enabledGood_deepMergeF fuel _ uc
    (enabledGood_deepMergeF fuel _ _
      (enabledGood_deleteOwn _ _
        (enabledGood_deepMergeF fuel _ _ hcom (envConfigOf_good e)))
      hproj) huc

/-- The merged configuration carries an object with an `enabled` own
property at the given defaults key, when the overlays bind that key (if at
all) to objects. -/
theorem mergedConfigOf_hasSection (fuel : Nat) (e : EnvVars) (pt : String)
    (pc uc : Value) (K : String)
    (hKenv : (K == "environments") = false)
    (hcom : HasEnabledSection (commonConfigVal e) K)
    (henv : SectionOk (envConfigOf e) K)
    (hpc : SectionOk pc K) (huc : SectionOk uc K) :
    HasEnabledSection (mergedConfigOf fuel e pt pc uc) K := by
  rw [mergedConfigOf]
  have h1 := hasEnabledSection_deepMergeF fuel (commonConfigVal e)
    (envConfigOf e) K rfl hcom henv
  have h1' : isObject (deleteOwn (deepMergeF fuel (commonConfigVal e)
      (envConfigOf e)) "environments") = true := isObject_deleteOwn h1.1
  have h1'' : HasEnabledSection (deleteOwn (deepMergeF fuel (commonConfigVal e)
      (envConfigOf e)) "environments") K := by
    obtain ⟨fs, w, hg, he⟩ := h1.2
    exact ⟨fs, w, by rw [getPropD_deleteOwn_ne _ _ _ hKenv]; exact hg, he⟩
  have hprojOk : SectionOk (projectCfgOf pt pc) K := by
    rw [projectCfgOf]
    by_cases h : (pt == "common") = true
    · rw [if_pos h]; intro p hp; cases hp
    · rw [if_neg h]; exact hpc
  have h2 := hasEnabledSection_deepMergeF fuel _ (projectCfgOf pt pc) K
    h1' h1'' hprojOk
  exact (hasEnabledSection_deepMergeF fuel _ uc K h2.1 h2.2 huc).2

/-! ## Inversion of `resolveHookSection` and `getConfig` -/

theorem resolveHookSection_ok_inv (merged : Value) (dk ovk : String)
    (sec : Value) (h : resolveHookSection merged dk ovk = .ok sec) :
    ∃ ds ov ded,
      checksSpread (getPropD (getPropD merged dk) "checks") = .ok ds ∧
      checksSpread (getPropD (getPropD merged ovk) "checks") = .ok ov ∧
      dedupByName (ds ++ ov) = .ok ded ∧
      sec = .obj (setOwn
        ((spreadFields (getPropD merged ovk)).foldl
          (fun o p => setOwn o p.1 p.2)
          (spreadFields (getPropD merged dk)))
        "checks" (.arr ded)) := by
  rw [resolveHookSection] at h
  cases h1 : checksSpread (getPropD (getPropD merged dk) "checks") with
  | error er => rw [h1] at h; dsimp only at h; cases h
  | ok ds =>
    rw [h1] at h
    dsimp only at h
    cases h2 : checksSpread (getPropD (getPropD merged ovk) "checks") with
    | error er => rw [h2] at h; dsimp only at h; cases h
    | ok ov =>
      rw [h2] at h
      dsimp only at h
      cases h3 : dedupByName (ds ++ ov) with
      | error er => rw [h3] at h; dsimp only at h; cases h
      | ok ded =>
        rw [h3] at h
        dsimp only at h
        simp only [Except.ok.injEq] at h
        exact ⟨ds, ov, ded, rfl, rfl, h3, h.symm⟩

/-- Unique names in the checks of a successfully resolved hook section. -/
theorem resolveHookSection_checks_pairwise (merged : Value) (dk ovk : String)
    (sec : Value) (h : resolveHookSection merged dk ovk = .ok sec) :
    ∃ l, getPropD sec "checks" = .arr l ∧ l.Pairwise DistinctNames := by
  obtain ⟨ds, ov, ded, _, _, hded, rfl⟩ := resolveHookSection_ok_inv _ _ _ _ h
  refine ⟨ded, ?_, dedupByName_pairwise _ _ hded⟩
  rw [getPropD, getOwn_setOwn_self, Option.getD_some]

/-- Boolean `enabled` in a successfully resolved hook section. -/
theorem resolveHookSection_enabled (merged : Value) (dk ovk : String)
    (sec : Value) (hgood : EnabledGood merged)
    (hsec : HasEnabledSection merged dk)
    (h : resolveHookSection merged dk ovk = .ok sec) :
    ∃ b, getPropD sec "enabled" = .bool b := by
  obtain ⟨_, _, _, _, _, _, rfl⟩ := resolveHookSection_ok_inv _ _ _ _ h
  obtain ⟨fsA, w, hA, hw⟩ := hsec
  have hAgood : EnabledGood (.obj fsA) := by
    rw [← hA]; exact enabledGood_getPropD _ _ hgood
  have hwbool : ∃ b, w = Value.bool b :=
    enabled_bool_of_getOwn (goodFields_of_enabledGood hAgood) hw
  have hBgood : GoodFields (spreadFields (getPropD merged ovk)) :=
    goodFields_spread _ (enabledGood_getPropD _ _ hgood)
  have hfold := getOwn_foldl_pres "enabled" (fun v => ∃ b, v = Value.bool b)
    (spreadFields (getPropD merged ovk)) (spreadFields (getPropD merged dk))
    (by
      refine ⟨w, ?_, hwbool⟩
      rw [hA]
      exact hw)
    (fun p hp hk => (hBgood p hp).1 hk)
  obtain ⟨w', h1, b, rfl⟩ := hfold
  refine ⟨b, ?_⟩
  rw [getPropD, getOwn_setOwn_ne _ _ _ _ (by decide), h1, Option.getD_some]

/-- Boolean `enabled` in the resolved `commitMsg` section. -/
theorem resolveCommitMsg_enabled (merged : Value) (hgood : EnabledGood merged)
    (hsec : HasEnabledSection merged "commitMsgDefaults") :
    ∃ b, getPropD (resolveCommitMsgSection merged) "enabled" = .bool b := by
  obtain ⟨fsA, w, hA, hw⟩ := hsec
  have hAgood : EnabledGood (.obj fsA) := by
    rw [← hA]; exact enabledGood_getPropD _ _ hgood
  have hwbool : ∃ b, w = Value.bool b :=
    enabled_bool_of_getOwn (goodFields_of_enabledGood hAgood) hw
  have hBgood : GoodFields (spreadFields (getPropD merged "commitMsg")) :=
    goodFields_spread _ (enabledGood_getPropD _ _ hgood)
  have hfold := getOwn_foldl_pres "enabled" (fun v => ∃ b, v = Value.bool b)
    (spreadFields (getPropD merged "commitMsg"))
    (spreadFields (getPropD merged "commitMsgDefaults"))
    (by
      refine ⟨w, ?_, hwbool⟩
      rw [hA]
      exact hw)
    (fun p hp hk => (hBgood p hp).1 hk)
  obtain ⟨w', h1, b, rfl⟩ := hfold
  refine ⟨b, ?_⟩
  rw [resolveCommitMsgSection, getPropD, h1, Option.getD_some]

theorem getConfig_ok_inv (fuel : Nat) (e : EnvVars) (pt : String)
    (pc uc : Value) (now cwd : String) (r : Value)
    (h : getConfig fuel e pt pc uc now cwd = .ok r) :
    ∃ pre push,
      resolveHookSection (mergedConfigOf fuel e pt pc uc)
        "preCommitDefaults" "preCommit" = .ok pre ∧
      resolveHookSection (mergedConfigOf fuel e pt pc uc)
        "prePushDefaults" "prePush" = .ok push ∧
      getPropD r "preCommit" = pre ∧ getPropD r "prePush" = push ∧
      getPropD r "commitMsg" =
        resolveCommitMsgSection (mergedConfigOf fuel e pt pc uc) := by
  rw [getConfig] at h
  cases h1 : resolveHookSection (mergedConfigOf fuel e pt pc uc)
      "preCommitDefaults" "preCommit" with
  | error er => rw [h1] at h; dsimp only at h; cases h
  | ok pre =>
    rw [h1] at h
    dsimp only at h
    cases h2 : resolveHookSection (mergedConfigOf fuel e pt pc uc)
        "prePushDefaults" "prePush" with
    | error er => rw [h2] at h; dsimp only at h; cases h
    | ok push =>
      rw [h2] at h
      dsimp only at h
      simp only [Except.ok.injEq] at h
      subst h
      exact ⟨pre, push, rfl, rfl, rfl, rfl, rfl⟩

/-! ## The anchored match is a prefix of the message -/

theorem matchLit_take_append (ci : Bool) :
    ∀ (p s r : List Char), matchLit ci p s = some r →
      s.take p.length ++ r = s ∧ p.length ≤ s.length := by
  intro p
  induction p with
  | nil =>
    intro s r h
    rw [matchLit] at h
    simp only [Option.some.injEq] at h
    subst h
    exact ⟨by simp, by simp⟩
  | cons c ps ih =>
    intro s r h
    cases s with
    | nil => rw [matchLit] at h; cases h
    | cons d ds =>
      rw [matchLit] at h
      by_cases hc : charEqCI ci c d = true
      · rw [if_pos hc] at h
        obtain ⟨h1, h2⟩ := ih ds r h
        constructor
        · simpa [List.take_succ_cons] using h1
        · simpa using h2
      · rw [if_neg hc] at h; cases h

theorem splitsAt_append : ∀ (s : List Char) (pr : List Char × List Char),
    pr ∈ splitsAt s → pr.1 ++ pr.2 = s := by
  intro s
  induction s with
  | nil =>
    intro pr hpr
    rcases List.mem_singleton.1 hpr with rfl
    rfl
  | cons c cs ih =>
    intro pr hpr
    rw [splitsAt] at hpr
    rcases List.mem_cons.1 hpr with rfl | hpr
    · rfl
    · obtain ⟨q, hq, rfl⟩ := List.mem_map.1 hpr
      have := ih q hq
      simpa using congrArg (c :: ·) this

theorem scopeCandidates_append (rest : List Char)
    (sc : Option (List Char)) (tail : List Char)
    (h : (sc, tail) ∈ scopeCandidates rest) :
    (sc.getD []) ++ tail = rest := by
  rw [scopeCandidates.eq_def] at h
  rcases List.mem_append.1 h with h | h
  · cases rest with
    | nil => cases h
    | cons c inside =>
      dsimp only at h
      by_cases hc : c = '('
      · rw [if_pos hc] at h
        simp only [List.mem_reverse, List.mem_map, List.mem_filter] at h
        obtain ⟨q, ⟨hq, hcond⟩, heq⟩ := h
        simp only [Bool.and_eq_true] at hcond
        obtain ⟨⟨_, _⟩, hhead⟩ := hcond
        obtain ⟨rfl, rfl⟩ : sc = some (c :: (q.1 ++ [')'])) ∧ tail = q.2.tail := by
          have h1 := congrArg Prod.fst heq
          have h2 := congrArg Prod.snd heq
          exact ⟨h1.symm, h2.symm⟩
        have hsplit := splitsAt_append inside q hq
        have hq2 : q.2 = ')' :: q.2.tail := by
          cases hq2c : q.2 with
          | nil => rw [hq2c] at hhead; cases hhead
          | cons x xs =>
            rw [hq2c] at hhead
            have hx : x = ')' := by simpa using hhead
            subst hx
            rfl
        show (c :: (q.1 ++ [')'])) ++ q.2.tail = c :: inside
        rw [← hsplit]
        conv_rhs => rw [hq2]
        simp
      · rw [if_neg hc] at h
        cases h
  · rcases List.mem_singleton.1 h with heq
    obtain ⟨rfl, rfl⟩ : sc = none ∧ tail = rest := by
      have h1 := congrArg Prod.fst heq
      have h2 := congrArg Prod.snd heq
      exact ⟨h1, h2⟩
    rfl

theorem matchTail_append (t mt : List Char) (h : matchTail t = some mt) :
    ∃ rest, mt ++ rest = t := by
  cases t with
  | nil => rw [matchTail] at h; cases h
  | cons c1 t1 =>
    cases t1 with
    | nil => rw [matchTail] at h; cases h
    | cons c2 d =>
      rw [matchTail] at h
      by_cases hc : (c1 = ':' && c2 = ' ') = true
      · rw [if_pos hc] at h
        by_cases hemp : (d.takeWhile dotChar).isEmpty = true
        · rw [if_pos hemp] at h; cases h
        · rw [if_neg hemp] at h
          simp only [Option.some.injEq] at h
          subst h
          exact ⟨d.dropWhile dotChar, by
            simp [List.takeWhile_append_dropWhile]⟩
      · rw [if_neg hc] at h; cases h

theorem tryType_prefix_of (ci : Bool) (msg : List Char) (t : String)
    (m : CMatch) (h : tryType ci msg t = some m) :
    ∃ suffix, m.m0.data ++ suffix = msg := by
  rw [tryType] at h
  cases hlit : matchLit ci t.data msg with
  | none => rw [hlit] at h; cases h
  | some rest =>
    rw [hlit] at h
    obtain ⟨c, hc, hm⟩ := List.exists_of_findSome?_eq_some h
    obtain ⟨mt, hmt, hm'⟩ := Option.map_eq_some'.1 hm
    obtain ⟨htake, _⟩ := matchLit_take_append ci t.data msg rest hlit
    have hscope := scopeCandidates_append rest c.1 c.2 (by
      have : c = (c.1, c.2) := rfl
      rw [← this]; exact hc)
    obtain ⟨tailRest, htail⟩ := matchTail_append c.2 mt hmt
    refine ⟨tailRest, ?_⟩
    rw [← hm']
    show (msg.take t.data.length ++ (c.1.getD [] ++ mt)) ++ tailRest = msg
    calc (msg.take t.data.length ++ (c.1.getD [] ++ mt)) ++ tailRest
        = msg.take t.data.length ++ (c.1.getD [] ++ (mt ++ tailRest)) := by
          simp
      _ = msg.take t.data.length ++ (c.1.getD [] ++ c.2) := by rw [htail]
      _ = msg.take t.data.length ++ rest := by rw [hscope]
      _ = msg := htake

theorem matchCommitPattern_isPrefix (ci : Bool) (msg : String) (m : CMatch)
    (h : matchCommitPattern ci msg = some m) :
    ∃ suffix, msg.data = m.m0.data ++ suffix := by
  rw [matchCommitPattern] at h
  obtain ⟨t, _, hm⟩ := List.exists_of_findSome?_eq_some h
  obtain ⟨suffix, hs⟩ := tryType_prefix_of ci msg.data t m hm
  exact ⟨suffix, hs.symm⟩

/-- The overall match is non-empty (it starts with a type keyword). -/
theorem matchCommitPattern_m0_ne (ci : Bool) (msg : String) (m : CMatch)
    (h : matchCommitPattern ci msg = some m) : m.m0.data ≠ [] := by
  rw [matchCommitPattern] at h
  obtain ⟨t, ht, hm⟩ := List.exists_of_findSome?_eq_some h
  rw [tryType] at hm
  cases hlit : matchLit ci t.data msg.data with
  | none => rw [hlit] at hm; cases hm
  | some rest =>
    rw [hlit] at hm
    obtain ⟨c, _, hc⟩ := List.exists_of_findSome?_eq_some hm
    obtain ⟨mt, _, hm'⟩ := Option.map_eq_some'.1 hc
    obtain ⟨_, hlen⟩ := matchLit_take_append ci t.data msg.data rest hlit
    have htlen : t.data.length ≠ 0 := by
      have hall : ∀ t' ∈ commitTypes, t'.data.length ≠ 0 := by decide
      exact hall t ht
    rw [← hm']
    show (msg.data.take t.data.length ++ (c.1.getD [] ++ mt)) ≠ []
    intro hnil
    rw [List.append_eq_nil] at hnil
    have hlen0 : min t.data.length msg.data.length = 0 := by
      simpa using congrArg List.length hnil.1
    omega

theorem isPrefixOf_append_self : ∀ (p suf : List Char),
    p.isPrefixOf (p ++ suf) = true := by
  intro p
  induction p with
  | nil => intro suf; simp [List.isPrefixOf]
  | cons c ps ih =>
    intro suf
    show List.isPrefixOf (c :: ps) (c :: (ps ++ suf)) = true
    rw [List.isPrefixOf]
    simp [ih]

/-- Removing the first occurrence of a non-empty prefix is dropping it. -/
theorem jsReplaceFirst_of_prefix (s pat : String) (suf : List Char)
    (hne : pat.data ≠ []) (h : s.data = pat.data ++ suf) :
    jsReplaceFirst s pat "" = String.mk suf := by
  rw [jsReplaceFirst]
  cases hp : pat.data with
  | nil => exact absurd hp hne
  | cons c cs =>
    rw [hp] at h
    rw [List.cons_append] at h
    rw [h]
    have hpre : (c :: cs).isPrefixOf (c :: (cs ++ suf)) = true :=
      isPrefixOf_append_self (c :: cs) suf
    have hdrop : (c :: (cs ++ suf)).drop (c :: cs).length = suf := by
      show ((c :: cs) ++ suf).drop (c :: cs).length = suf
      exact List.drop_left _ _
    have hfs : findSplit (c :: cs) (c :: (cs ++ suf)) = some ([], suf) := by
      show (if (c :: cs).isPrefixOf (c :: (cs ++ suf)) then
          some ([], (c :: (cs ++ suf)).drop (c :: cs).length)
        else (findSplit (c :: cs) (cs ++ suf)).map fun p => (c :: p.1, p.2)) =
        some ([], suf)
      rw [if_pos hpre, hdrop]
    rw [hfs]
    simp

/-! ## Claim theorems -/

/-- A check collaborator under which every check resolves. -/
def rcAllOk : String → Except String Unit := fun _ => .ok ()

/-- A check collaborator under which every check throws. -/
def rcAllFail : String → Except String Unit := fun _ => .error "check failed"

/-- C1: the pre-commit / pre-push entry points exit 0 on a successful run
and 1 on failure.  **Refuted in half**: every failure path does exit 1, but
so does every success path — `runWithTimeout` discards the value of
`Promise.race` and resolves `undefined`, so `process.exit(success ? 0 : 1)`
receives `undefined` and the process exits 1 unconditionally, even for runs
that succeed (e.g. a disabled hook, which makes the check runner resolve
`true`). -/
theorem c1_exit_status_always_one :
    (∀ o : RaceOutcome, hookExitCode o = 1) ∧
    runPreCommitChecks rcAllOk ⟨false, none, []⟩ = ([], true) ∧
    runPrePushChecks rcAllOk ⟨false, none, []⟩ "main" = ([], true) ∧
    hookExitCode (.completed (.ok true)) = 1 ∧
    hookExitCode (.completed (.error "err")) = 1 ∧
    hookExitCode .timedOut = 1 := by
  refine ⟨?_, rfl, rfl, rfl, rfl, rfl⟩
  intro o
  rcases o with r | _
  · rcases r with e | b <;> rfl
  · rfl

/-- C3: the pre-push runner's branch-skip test is
`config.prePush.skipBranches?.includes(currentBranch)` — exact string
membership, not the glob matching of the (unused) `shouldSkipForBranch`
helper.  With the shipped skip list, branch `release/1.2` is *not* skipped:
the hook proceeds to run its checks (the trace is non-empty) and a failing
critical check fails the push.  The helper's wildcard semantics — matching
`release/1.2` but not `release` — exist only in
`common.config.js`'s exported `utils`. -/
theorem c3_branch_skip_exact_match :
    runPrePushChecks rcAllFail
      ⟨true, some ["main", "master", "develop", "release/*"],
        [⟨"build", true, true⟩]⟩ "release/1.2" =
      ([⟨"build", false, some true⟩], false) ∧
    (["main", "master", "develop", "release/*"].contains "release/1.2"
      = false) ∧
    shouldSkipForBranch "release/1.2" ["release/*"] = true ∧
    shouldSkipForBranch "release" ["release/*"] = false ∧
    runPrePushChecks rcAllFail
      ⟨true, some ["main", "master", "develop", "release/*"],
        [⟨"build", true, true⟩]⟩ "main" = ([], true) := by
  exact ⟨by decide, by decide, by decide, by decide, by decide⟩

/-- A process environment with every consulted variable unset (so
`getEnvironment` resolves `"development"`). -/
def envUnset : EnvVars := ⟨none, none, none, none, none, none, none⟩

/-- The higher-priority (user) layer's full object for the check name
`lint-staged`: it disables the check. -/
def c2UserCheck : Value :=
  .obj [("name", .str "lint-staged"), ("enabled", .bool false),
    ("critical", .bool false)]

def c2UserConfig : Value :=
  .obj [("preCommit", .obj [("checks", .arr [c2UserCheck])])]

/-- The `preCommitDefaults` layer's full `lint-staged` object. -/
def c2DefaultsLintStaged : Value :=
  .obj [("name", .str "lint-staged"), ("enabled", .bool true),
    ("critical", .bool true),
    ("options", .obj [("stagedOnly", .bool true), ("allowEmpty", .bool false),
      ("autoFix", .bool true)])]

def c2DefaultsTypescript : Value :=
  .obj [("name", .str "typescript"), ("enabled", .bool true),
    ("critical", .bool true),
    ("options", .obj [("noEmit", .bool true), ("skipLibCheck", .bool true),
      ("changedOnly", .bool true)])]

/-- C2 counterexample: the claim predicts that when `preCommitDefaults` and
the higher-priority `preCommit` override both carry a `lint-staged`
descriptor, the override's full object survives in the resolved checks.  It
does not: `getConfig`'s dedup keeps the *first* occurrence, which comes from
the defaults layer, so the resolved list is exactly the two defaults objects
and the user's `enabled: false` override object is discarded (the surviving
object has `enabled: true`, the discarded one `enabled: false`). -/
theorem c2_counterexample :
    (getConfig 40 envUnset "common" (.obj []) c2UserConfig
        "2024-01-01T00:00:00.000Z" "/proj").map
      (fun r => getPropD (getPropD r "preCommit") "checks") =
      .ok (.arr [c2DefaultsLintStaged, c2DefaultsTypescript]) ∧
    getPropD c2DefaultsLintStaged "enabled" = .bool true ∧
    getPropD c2UserCheck "enabled" = .bool false ∧
    Value.bool true ≠ Value.bool false := by
  refine ⟨rfl, rfl, rfl, ?_⟩
  intro h
  injection h with h'
  cases h'

/-- C2 amended: after concatenation the dedup keeps the *first* occurrence
of each name — for a name already present in the defaults list, the defaults
layer's full object is the survivor and every later (higher-priority)
homonym is dropped.  The later layer's object wins only inside
`mergeArrays`, i.e. when both layers' lists meet at the *same* key path
during `deepMerge` (there, `Map.set` keeps first-insertion position but
replaces the value, illustrated by the second conjunct). -/
theorem c2_amended :
    (∀ (d : Value) (rest out : List Value),
      notNullish d = true → primName d = true →
      dedupByName (d :: rest) = .ok out →
      ∃ tl, out = d :: tl ∧
        ∀ v ∈ tl, sameValue (nameOfV v) (nameOfV d) = false) ∧
    mergeArraysF 10
      [.obj [("name", .str "a"), ("enabled", .bool true)]]
      [.obj [("name", .str "a"), ("enabled", .bool false)]] =
      [.obj [("name", .str "a"), ("enabled", .bool false)]] :=
  ⟨dedupByName_head, rfl⟩

/-- Witness for C2's amended statement at a two-element concatenation whose
head and tail collide on the name `"a"`. -/
theorem c2_amended_witness :
    notNullish (.obj [("name", .str "a"), ("enabled", .bool true)]) = true ∧
    primName (.obj [("name", .str "a"), ("enabled", .bool true)]) = true ∧
    ∃ tl, [(.obj [("name", .str "a"), ("enabled", .bool true)] : Value)] =
        .obj [("name", .str "a"), ("enabled", .bool true)] :: tl ∧
      ∀ v ∈ tl, sameValue (nameOfV v)
        (nameOfV (.obj [("name", .str "a"), ("enabled", .bool true)])) = false :=
  ⟨rfl, rfl,
    c2_amended.1 (.obj [("name", .str "a"), ("enabled", .bool true)])
      [.obj [("name", .str "a"), ("enabled", .bool false)]]
      [.obj [("name", .str "a"), ("enabled", .bool true)]]
      rfl rfl rfl⟩

/-- C4: on a failing `critical` check, the hook runner returns failure
immediately and invokes no later check: for an all-enabled checks list
`pre ++ a :: post` where nothing in `pre` critically fails and `a` is
critical and failing, the run's trace is exactly `pre`'s results followed by
`a`'s failure — the right-hand side does not depend on `post`, so no check
after `a` is invoked — and the overall result is failure. -/
theorem c4_critical_failure_aborts
    (rc : String → Except String Unit) (pre : List Check) (a : Check)
    (post : List Check)
    (hen : ∀ c ∈ pre ++ a :: post, c.enabled = true)
    (hpre : ∀ c ∈ pre, NoCritFail rc c)
    (hcrit : a.critical = true) (hfail : ∃ e, rc a.name = .error e) :
    runHookChecks rc (pre ++ a :: post) =
      (pre.map (resultOf rc) ++ [⟨a.name, false, some a.critical⟩], false) := by
  have hfilter : (pre ++ a :: post).filter (·.enabled) = pre ++ a :: post :=
    List.filter_eq_self.2 (by intro c hc; simpa using hen c hc)
  unfold runHookChecks
  rw [hfilter, runChecksLoop_abort_at rc pre a post hpre hfail hcrit]
  simp

/-- A check collaborator under which exactly the check named `"A"`
throws. -/
def rcFailA : String → Except String Unit :=
  fun n => if n == "A" then .error "boom" else .ok ()

/-- Witness for C4 at the claim's own example `[A(critical, fails),
B(critical, would-pass)]`: B is absent from the trace and the result is
failure. -/
theorem c4_witness :
    runHookChecks rcFailA [⟨"A", true, true⟩, ⟨"B", true, true⟩] =
      ([⟨"A", false, some true⟩], false) := by
  have h := c4_critical_failure_aborts rcFailA
    [] ⟨"A", true, true⟩ [⟨"B", true, true⟩]
    (by decide) (by simp) rfl ⟨"boom", rfl⟩
  simpa using h

/-- C5: a failing non-critical check does not abort the run — the loop
records the failure and continues with the remaining checks unchanged — and
for an all-enabled list the overall result is `true` iff every
`critical = true` check passes; when no critical check fails, every check in
the list is executed (the trace covers the whole list). -/
theorem c5_noncritical_failure_continues :
    (∀ (rc : String → Except String Unit) (a : Check) (rest : List Check)
      (e : String), rc a.name = .error e → a.critical = false →
      runChecksLoop rc (a :: rest) =
        (⟨a.name, false, some a.critical⟩ :: (runChecksLoop rc rest).1,
          (runChecksLoop rc rest).2)) ∧
    (∀ (rc : String → Except String Unit) (cs : List Check),
      (∀ c ∈ cs, c.enabled = true) →
      ((runHookChecks rc cs).2 = true ↔
        ∀ c ∈ cs, c.critical = true → ∃ u, rc c.name = .ok u)) ∧
    (∀ (rc : String → Except String Unit) (cs : List Check),
      (∀ c ∈ cs, c.enabled = true) → (∀ c ∈ cs, NoCritFail rc c) →
      (runHookChecks rc cs).1 = cs.map (resultOf rc)) := by
  refine ⟨?_, ?_, ?_⟩
  · intro rc a rest e he hc
    exact runChecksLoop_cons_fail_noncrit rc a rest e he hc
  · intro rc cs hen
    rw [runHookChecks_true_iff]
    constructor
    · intro h c hc hcrit; exact h c hc (hen c hc) hcrit
    · intro h c hc _ hcrit; exact h c hc hcrit
  · intro rc cs hen hnc
    have hfilter : cs.filter (·.enabled) = cs :=
      List.filter_eq_self.2 (by intro c hc; simpa using hen c hc)
    have hloop := runChecksLoop_no_abort rc cs hnc
    have hacp : allCriticalPassed (cs.map (resultOf rc)) = true := by
      have := allCriticalPassed_of_no_abort rc cs (by rw [hloop])
      rwa [hloop] at this
    unfold runHookChecks
    rw [hfilter, hloop]
    simp [hacp]

/-- Witness for C5 at the claim's own example `[A(non-critical, fails),
B(critical, passes)]`: both checks run and the overall result is success. -/
theorem c5_witness :
    runChecksLoop rcFailA [⟨"A", true, false⟩, ⟨"B", true, true⟩] =
      ([⟨"A", false, some false⟩, ⟨"B", true, none⟩], false) ∧
    ((runHookChecks rcFailA [⟨"A", true, false⟩, ⟨"B", true, true⟩]).2 = true
      ↔ ∀ c ∈ [(⟨"A", true, false⟩ : Check), ⟨"B", true, true⟩],
        c.critical = true → ∃ u, rcFailA c.name = .ok u) ∧
    (runHookChecks rcFailA [⟨"A", true, false⟩, ⟨"B", true, true⟩]).1 =
      [⟨"A", false, some false⟩, ⟨"B", true, none⟩] := by
  refine ⟨?_, ?_, ?_⟩
  · have h := c5_noncritical_failure_continues.1 rcFailA
      ⟨"A", true, false⟩ [⟨"B", true, true⟩] "boom" rfl rfl
    rw [h]; rfl
  · exact c5_noncritical_failure_continues.2.1 rcFailA
      [⟨"A", true, false⟩, ⟨"B", true, true⟩] (by decide)
  · have h := c5_noncritical_failure_continues.2.2 rcFailA
      [⟨"A", true, false⟩, ⟨"B", true, true⟩] (by decide)
      (by
        intro c hc
        rcases List.mem_cons.1 hc with rfl | hc
        · exact Or.inr rfl
        · rcases List.mem_cons.1 hc with rfl | hc
          · exact Or.inl ⟨(), rfl⟩
          · cases hc)
    simpa [resultOf, rcFailA] using h

/-- C6 counterexample: the resolved configuration does *not* have a boolean
`enabled` for every `projectType` and `userConfig` — a user override that
binds `preCommit.enabled` to a non-boolean (here the number 5) flows through
`deepMerge` and the final spread untouched, so the resolved `preCommit`
section's `enabled` is `5`, not a boolean. -/
theorem c6_counterexample :
    (getConfig 40 envUnset "common" (.obj [])
        (.obj [("preCommit", .obj [("enabled", .num 5)])])
        "2024-01-01T00:00:00.000Z" "/proj").map
      (fun r => getPropD (getPropD r "preCommit") "enabled") =
      .ok (.num 5) ∧
    ∀ b : Bool, Value.num 5 ≠ Value.bool b := by
  refine ⟨rfl, ?_⟩
  intro b h
  cases h

/-- C6 amended: for every recursion bound, environment, project type and
layers, if `getConfig` succeeds then (a) the resolved `preCommit` and
`prePush` sections' `checks` lists have pairwise-distinct names —
unconditionally; and (b) each of the three sections carries an `enabled`
field that is a boolean, *provided* the project and user layers bind
`enabled` keys only to booleans and bind the `*Defaults` section keys (if at
all) to objects.  The counterexample shows (b)'s proviso cannot be
dropped. -/
theorem c6_amended (fuel : Nat) (e : EnvVars) (pt : String) (pc uc : Value)
    (now cwd : String) (r : Value)
    (h : getConfig fuel e pt pc uc now cwd = .ok r) :
    ((∃ l, getPropD (getPropD r "preCommit") "checks" = .arr l ∧
        l.Pairwise DistinctNames) ∧
     (∃ l, getPropD (getPropD r "prePush") "checks" = .arr l ∧
        l.Pairwise DistinctNames)) ∧
    (EnabledGood pc → EnabledGood uc →
      defaultsOkChk pc = true → defaultsOkChk uc = true →
      (∃ b, getPropD (getPropD r "preCommit") "enabled" = .bool b) ∧
      (∃ b, getPropD (getPropD r "prePush") "enabled" = .bool b) ∧
      (∃ b, getPropD (getPropD r "commitMsg") "enabled" = .bool b)) := by
  obtain ⟨pre, push, hpre, hpush, hrpre, hrpush, hrcm⟩ :=
    getConfig_ok_inv fuel e pt pc uc now cwd r h
  constructor
  · constructor
    · rw [hrpre]
      exact resolveHookSection_checks_pairwise _ _ _ _ hpre
    · rw [hrpush]
      exact resolveHookSection_checks_pairwise _ _ _ _ hpush
  · intro hgpc hguc hdpc hduc
    obtain ⟨hpcPcd, hpcPpd, hpcCmd⟩ := sectionOk_of_defaultsOkChk hdpc
    obtain ⟨hucPcd, hucPpd, hucCmd⟩ := sectionOk_of_defaultsOkChk hduc
    obtain ⟨henvPcd, henvPpd, henvCmd⟩ := envConfigOf_defaultsOk e
    have hgood := mergedConfigOf_good fuel e pt pc uc hgpc hguc
    refine ⟨?_, ?_, ?_⟩
    · rw [hrpre]
      exact resolveHookSection_enabled _ _ _ _ hgood
        (mergedConfigOf_hasSection fuel e pt pc uc "preCommitDefaults"
          (by decide) ⟨_, _, rfl, rfl⟩ henvPcd hpcPcd hucPcd) hpre
    · rw [hrpush]
      exact resolveHookSection_enabled _ _ _ _ hgood
        (mergedConfigOf_hasSection fuel e pt pc uc "prePushDefaults"
          (by decide) ⟨_, _, rfl, rfl⟩ henvPpd hpcPpd hucPpd) hpush
    · rw [hrcm]
      exact resolveCommitMsg_enabled _ hgood
        (mergedConfigOf_hasSection fuel e pt pc uc "commitMsgDefaults"
          (by decide) ⟨_, _, rfl, rfl⟩ henvCmd hpcCmd hucCmd)

/-- Witness for C6 amended at the default configuration (`projectType =
"common"`, empty project and user layers, all environment variables
unset). -/
theorem c6_amended_witness :
    ∃ r, getConfig 40 envUnset "common" (.obj []) (.obj [])
        "2024-01-01T00:00:00.000Z" "/proj" = .ok r ∧
      ((∃ l, getPropD (getPropD r "preCommit") "checks" = .arr l ∧
          l.Pairwise DistinctNames) ∧
       (∃ l, getPropD (getPropD r "prePush") "checks" = .arr l ∧
          l.Pairwise DistinctNames)) ∧
      ((∃ b, getPropD (getPropD r "preCommit") "enabled" = .bool b) ∧
       (∃ b, getPropD (getPropD r "prePush") "enabled" = .bool b) ∧
       (∃ b, getPropD (getPropD r "commitMsg") "enabled" = .bool b)) := by
  have hok : (getConfig 40 envUnset "common" (.obj []) (.obj [])
      "2024-01-01T00:00:00.000Z" "/proj").isOk = true := rfl
  cases hc : getConfig 40 envUnset "common" (.obj []) (.obj [])
      "2024-01-01T00:00:00.000Z" "/proj" with
  | error er => rw [hc] at hok; cases hok
  | ok r =>
    have hall := c6_amended 40 envUnset "common" (.obj []) (.obj [])
      "2024-01-01T00:00:00.000Z" "/proj" r hc
    exact ⟨r, rfl, hall.1,
      hall.2 (enabledGood_of_chk 1 _ rfl) (enabledGood_of_chk 1 _ rfl) rfl rfl⟩

/-- C7 counterexample: project-type detection is *not* total over every
project-root filesystem state — `fs.readdirSync(this.projectRoot)` sits
outside the `try`, so an unreadable project root (e.g. `EACCES`) propagates
out of `detectProjectType` instead of being swallowed, even with a perfectly
fine `package.json`. -/
theorem c7_counterexample :
    detectProjectType
      ⟨.error "EACCES: permission denied", true, .ok (.obj [])⟩ =
      .error "EACCES: permission denied" := rfl

/-- C7 amended: *provided listing the project root succeeds*, detection
never throws and returns one of the four known project types, regardless of
the `package.json` state — a missing, unreadable or malformed manifest is
swallowed by the inner `try`/`catch` and detection falls back to
`"common"`. -/
theorem c7_amended (fs : FsState) (files : List String)
    (h : fs.rootFiles = .ok files) :
    ∃ t, detectProjectType fs = .ok t ∧
      t ∈ ["nextjs", "vite", "react", "common"] := by
  unfold detectProjectType
  rw [h]
  by_cases h1 : files.any isNextConfigFile
  · exact ⟨"nextjs", by simp [h1]⟩
  · by_cases h2 : files.any isViteConfigFile
    · exact ⟨"vite", by simp [h1, h2]⟩
    · refine ⟨detectFromManifest fs, by simp [h1, h2], ?_⟩
      unfold detectFromManifest
      by_cases hex : fs.pkgExists
      · simp only [hex, if_true]
        cases hp : fs.pkgParsed with
        | error e => simp [hp]
        | ok pkg =>
          simp only [hp]
          cases hd : pkgAllDeps pkg with
          | error e => simp [hd]
          | ok deps =>
            simp only [hd]
            by_cases d1 : (depTruthy deps "next" || depTruthy deps "nextjs") = true
            · simp [d1]
            · by_cases d2 : depTruthy deps "vite" = true
              · simp [d1, d2]
              · by_cases d3 : (depTruthy deps "react" && !depTruthy deps "next") = true
                · simp [d1, d2, d3]
                · simp [d1, d2, d3]
      · simp [hex]

/-- Witness for C7: a root listing with no framework markers and a manifest
whose parse failed detects as `"common"`. -/
theorem c7_amended_witness :
    (⟨.ok ["index.js", "package.json"], true,
        .error "SyntaxError: Unexpected token"⟩ : FsState).rootFiles =
      .ok ["index.js", "package.json"] ∧
    ∃ t, detectProjectType
        ⟨.ok ["index.js", "package.json"], true,
          .error "SyntaxError: Unexpected token"⟩ = .ok t ∧
      t ∈ ["nextjs", "vite", "react", "common"] :=
  ⟨rfl, c7_amended _ ["index.js", "package.json"] rfl⟩

/-- Discriminators for C10's hypothesis: is the value a `RegExp` instance /
a string? -/
def isRegexpValue : Value → Bool
  | .regexp _ _ => true
  | _ => false

def isStringValue : Value → Bool
  | .str _ => true
  | _ => false

/-- C10: `parsePattern` is total over arbitrary pattern values — every input
that is neither a `RegExp` instance nor a string (`null`, `undefined`,
numbers, booleans, plain objects, arrays) falls through both guards and
yields the built-in default Conventional-Commits pattern. -/
theorem c10_parsePattern_total (v : Value)
    (hr : isRegexpValue v = false) (hs : isStringValue v = false) :
    parsePattern v = defaultCommitPattern := by
  cases v with
  | str s => simp [isStringValue] at hs
  | regexp src flags => simp [isRegexpValue] at hr
  | num n => rfl
  | bool b => rfl
  | null => rfl
  | undef => rfl
  | obj fs => rfl
  | arr es => rfl

/-- Witness for C10 at `null`. -/
theorem c10_witness :
    isRegexpValue .null = false ∧ isStringValue .null = false ∧
      parsePattern .null = defaultCommitPattern :=
  ⟨rfl, rfl, c10_parsePattern_total .null rfl rfl⟩

/-- C9: `deepMerge` (with its helper `mergeArrays`) never mutates either
input.  In the heap model: for every heap and every pair of argument values,
the heap after the call agrees with the old heap on every pre-existing
address (the old heap is literally the prefix the call's heap extends), and
the returned value is a reference to a node freshly allocated by the call
itself; `mergeArrays` extends the heap by exactly its result array. -/
theorem c9_deepMerge_no_mutation :
    ∀ (fuel : Nat) (H : Heap) (t s : HVal) (xs ys : List HVal),
      ((deepMergeHF fuel H t s).1.take H.length = H) ∧
      (∀ v, (deepMergeHF fuel H t s).2 = some v →
        ∃ a, v = .ref a ∧ H.length ≤ a) ∧
      ((mergeArraysH fuel H xs ys).1.take H.length = H) ∧
      (mergeArraysH fuel H xs ys).2 = .ref H.length := by
  intro fuel H t s xs ys
  refine ⟨?_, deepMergeHF_fresh fuel H t s, ?_, rfl⟩
  · obtain ⟨tl, htl⟩ := deepMergeHF_frame fuel H t s
    rw [← htl, List.take_left]
  · obtain ⟨node, hnode⟩ := mergeArraysH_heap fuel H xs ys
    rw [hnode, List.take_left]

/-- Witness for C9 (its only hypothesis is the inner `= some v`): merging
two one-field objects over a two-node heap leaves both nodes intact and
returns a fresh reference. -/
theorem c9_witness :
    ((deepMergeHF 3 [.obj [("a", .num 1)], .obj [("b", .num 2)]]
        (.ref 0) (.ref 1)).1.take 2 =
      [.obj [("a", .num 1)], .obj [("b", .num 2)]]) ∧
    (∃ a, (.ref 2 : HVal) = .ref a ∧ 2 ≤ a) := by
  have h := c9_deepMerge_no_mutation 3
    [.obj [("a", .num 1)], .obj [("b", .num 2)]] (.ref 0) (.ref 1) [] []
  refine ⟨h.1, h.2.1 (.ref 2) ?_⟩
  simp [deepMergeHF, dmKeysH, isObjectH, isArrayH, spreadFieldsH, keyInH,
    setOwnH, getPropDH, getOwnH, arrElemsH, mergeArraysH]

/-- C8 counterexample: the claim's own example is wrong about the
description.  The trailing `.+` of the compiled pattern is greedy, so for
`"feat(button): add variant"` the overall match `match[0]` is the *entire*
message; `commitMessage.replace(match[0], "")` erases everything and the
trimmed description is `""`, not `"add variant"`.  Type and scope come out
as claimed. -/
theorem c8_counterexample :
    parseCommitMessage false "feat(button): add variant" =
      some ⟨"feat", some "button", "", "feat(button): add variant"⟩ ∧
    ("" : String) ≠ "add variant" := by
  exact ⟨rfl, by decide⟩

/-- C8 amended: for every message the compiled pattern matches, the parsed
result has `type` equal to the first capture group, `scope` equal to the
second capture group with its parentheses removed (absent when the group
is not captured), `raw` the message itself, and `description` equal to the
*trim of the message text remaining after the overall match `match[0]`* —
which, `.+` being greedy, is everything after the first line's matched
portion, not the text after `"type(scope): "`. -/
theorem c8_amended (ci : Bool) (msg : String) (m : CMatch)
    (h : matchCommitPattern ci msg = some m) :
    ∃ suffix, msg.data = m.m0.data ++ suffix ∧
      parseCommitMessage ci msg =
        some ⟨m.typ,
          m.scopePart.map fun sp =>
            String.mk (sp.data.filter fun c => c != '(' && c != ')'),
          jsTrim (String.mk suffix), msg⟩ := by
  obtain ⟨suffix, hs⟩ := matchCommitPattern_isPrefix ci msg m h
  refine ⟨suffix, hs, ?_⟩
  rw [parseCommitMessage, h]
  dsimp only
  have hne := matchCommitPattern_m0_ne ci msg m h
  have hrep := jsReplaceFirst_of_prefix msg m.m0 suffix hne hs
  rw [hrep]

/-- Witness for C8 amended at `"feat(button): add variant"`: the match is
the whole message (so the remaining suffix is empty and the description
trims to `""`). -/
theorem c8_amended_witness :
    ∃ suffix, ("feat(button): add variant" : String).data =
        ("feat(button): add variant" : String).data ++ suffix ∧
      parseCommitMessage false "feat(button): add variant" =
        some ⟨"feat", some "button", jsTrim (String.mk suffix),
          "feat(button): add variant"⟩ :=
  c8_amended false "feat(button): add variant"
    ⟨"feat(button): add variant", "feat", some "(button)"⟩ rfl

end Husky
